import Mathlib

/-!
Shallow embedding of the SamePage–Logseq shared-page protocol
(`sharePageWithNotebook`, `src/unnamed/part_000`): the document encoder
(`toAtJson` / `calculateState`), the per-block markup serializer inside
`applyState`, the tree reconstruction (`insertAtLevel`), the tree flattener,
the reconciliation classification (`toCreate` / `toDelete` / `toUpdate`),
the emitted operation list, and a sequential execution model of the
promise chain.

Modelling conventions:
* JavaScript strings (and `Automerge.Text` character buffers) are modelled as
  `List Char` (`Str`); `slice` is `drop`/`take`, which clamps exactly as in JS.
* All offsets are `Nat`: every offset reachable in the source is non-negative
  (inline-annotation offsets are re-based by adding block offsets, and the
  normalisation subtracting a block start is only applied to annotations whose
  range is inside the block range).
* The inline markup codec (`atJsonParser` applied to `blockGrammar`) is an
  external capability of the `samepage` package, consumed and not defined in
  this repository; it is taken as a parameter `parse : Str → InitialSchema`.
* The identifier mapping store (IndexedDB `logseq-to-samepage` /
  `samepage-to-logseq`) is modelled as lookup functions / association lists;
  fresh uuid allocation (`v4()`) is an external randomness source modelled by
  a parameter `fresh`.
* Host (Logseq editor) reads are passed in as explicit inputs; host mutations
  are modelled as an ordered log of `HostCall`s produced by a sequential
  executor that mirrors `promises.reduce((p, c) => p.then(c), ...)`.
-/

abbrev Str := List Char

inductive ViewType
  | bullet
  | numbered
  | document
deriving DecidableEq, Repr

/-- The annotation record of the `Schema` type.  The `attributes` map is
flattened into optional fields: `block` annotations use `identifier`, `level`,
`viewType`; `metadata` annotations use `title`, `parent`; `link` annotations
use `href`.  (`end` is a Lean keyword, so the field is named `stop`.) -/
structure Anno where
  type : Str
  start : Nat
  stop : Nat
  identifier : Str := []
  level : Nat := 0
  viewType : ViewType := ViewType.bullet
  title : Str := []
  parent : Str := []
  href : Str := []
deriving DecidableEq, Repr

/-- `InputSchema` of the source: a content string plus annotations. -/
structure InitialSchema where
  content : Str
  annos : List Anno
deriving DecidableEq, Repr

/-- A block node: `InputTextNode` of the source / the fields of the host's
`BlockEntity` that the protocol reads (`content`, `uuid`, `children`,
`viewType`).  The host's `viewType` is optional; nodes built by `applyState`
always carry `some .bullet`. -/
inductive BlockNode where
  | mk (content : Str) (uuid : Str) (children : List BlockNode)
       (viewType : Option ViewType)

mutual

def BlockNode.decEq : ∀ a b : BlockNode, Decidable (a = b)
  | .mk c1 u1 ch1 vt1, .mk c2 u2 ch2 vt2 =>
    if h1 : c1 = c2 then
      if h2 : u1 = u2 then
        match BlockNode.decEqList ch1 ch2 with
        | isTrue h3 =>
          if h4 : vt1 = vt2 then isTrue (by rw [h1, h2, h3, h4])
          else isFalse fun he => h4 (by injection he)
        | isFalse h3 => isFalse fun he => h3 (by injection he)
      else isFalse fun he => h2 (by injection he)
    else isFalse fun he => h1 (by injection he)

def BlockNode.decEqList : ∀ xs ys : List BlockNode, Decidable (xs = ys)
  | [], [] => isTrue rfl
  | [], _ :: _ => isFalse fun he => List.noConfusion he
  | _ :: _, [] => isFalse fun he => List.noConfusion he
  | x :: xs, y :: ys =>
    match BlockNode.decEq x y with
    | isTrue h1 =>
      match BlockNode.decEqList xs ys with
      | isTrue h2 => isTrue (by rw [h1, h2])
      | isFalse h2 => isFalse fun he => h2 (by injection he)
    | isFalse h1 => isFalse fun he => h1 (by injection he)

end

instance : DecidableEq BlockNode := BlockNode.decEq

def BlockNode.content : BlockNode → Str
  | .mk c _ _ _ => c

def BlockNode.uuid : BlockNode → Str
  | .mk _ u _ _ => u

def BlockNode.children : BlockNode → List BlockNode
  | .mk _ _ ch _ => ch

def BlockNode.viewType : BlockNode → Option ViewType
  | .mk _ _ _ vt => vt

/-! ### Annotation type tags -/

def blockT : Str := "block".toList

def metadataT : Str := "metadata".toList

def boldT : Str := "bold".toList

def highlightingT : Str := "highlighting".toList

def italicsT : Str := "italics".toList

def strikethroughT : Str := "strikethrough".toList

def linkT : Str := "link".toList

/-! ### Property-line stripping

`isContentBlock` tests `!b.content || b.content.replace(/[a-z]+:: [^\n]+\n?/g, "")`:
a global replace that deletes every (leftmost, non-overlapping) match of a
lowercase key, `:: `, a non-empty run of non-newline characters and an
optional trailing newline.  Since the character classes `[a-z]`, `:`, `[^\n]`
and `\n` are disjoint at every boundary of the pattern, the greedy JS match is
exactly maximal-munch, which `matchPropLine` implements. -/

def matchPropLine (s : Str) : Option Str :=
  let key := s.takeWhile fun c => decide ('a' ≤ c) && decide (c ≤ 'z')
  if key.isEmpty then none
  else
    let rest1 := s.drop key.length
    if rest1.take 3 = [':', ':', ' '] then
      let rest := rest1.drop 3
      let v := rest.takeWhile fun c => c != '\n'
      if v.isEmpty then none
      else
        let rest2 := rest.drop v.length
        if rest2.take 1 = ['\n'] then some (rest2.drop 1) else some rest2
    else none

theorem matchPropLine_length {s r : Str} (h : matchPropLine s = some r) :
    r.length < s.length := by
  simp only [matchPropLine] at h
  set key := s.takeWhile fun c => decide ('a' ≤ c) && decide (c ≤ 'z') with hkey
  set rest1 := s.drop key.length with hrest1
  by_cases hk : key.isEmpty
  · rw [if_pos hk] at h; exact absurd h (by simp)
  · rw [if_neg hk] at h
    by_cases h3 : rest1.take 3 = [':', ':', ' ']
    · rw [if_pos h3] at h
      set rest := rest1.drop 3 with hrest
      set v := rest.takeWhile fun c => c != '\n' with hv
      by_cases hvemp : v.isEmpty
      · rw [if_pos hvemp] at h; exact absurd h (by simp)
      · rw [if_neg hvemp] at h
        set rest2 := rest.drop v.length with hrest2
        have hkeylen : 1 ≤ key.length := by
          rcases hke : key with _ | ⟨a, l⟩
          · rw [hke] at hk; simp at hk
          · simp
        have hkle : key.length ≤ s.length := by
          rw [hkey]
          exact (List.takeWhile_sublist _).length_le
        have hr1 : 3 ≤ rest1.length := by
          have := congrArg List.length h3
          simp [List.length_take] at this
          omega
        have hr1len : rest1.length = s.length - key.length := by
          rw [hrest1, List.length_drop]
        have hvlen : 1 ≤ v.length := by
          rcases hve : v with _ | ⟨a, l⟩
          · rw [hve] at hvemp; simp at hvemp
          · simp
        have hvle : v.length ≤ rest.length := by
          rw [hv]
          exact (List.takeWhile_sublist _).length_le
        have hrlen : rest.length = rest1.length - 3 := by
          rw [hrest, List.length_drop]
        have hr2len : rest2.length = rest.length - v.length := by
          rw [hrest2, List.length_drop]
        by_cases hnl : rest2.take 1 = ['\n']
        · rw [if_pos hnl, Option.some_inj] at h
          subst h
          simp only [List.length_drop]
          omega
        · rw [if_neg hnl, Option.some_inj] at h
          subst h
          omega
    · rw [if_neg h3] at h
      exact absurd h (by simp)

/-- The global property-line replace used by `isContentBlock`. -/
def stripProps : Str → Str
  | [] => []
  | c :: s =>
    match h : matchPropLine (c :: s) with
    | some rest => stripProps rest
    | none => c :: stripProps s
termination_by s => s.length
decreasing_by
  · exact matchPropLine_length h
  · simp

/-- `isContentBlock`: `!b.content || b.content.replace(/[a-z]+:: [^\n]+\n?/g, "")`,
coerced to its truthiness as used by `.filter(...)`: the block is kept when the
content is empty, or when the content with all property lines removed is
non-empty. -/
def isContentBlock (b : BlockNode) : Bool :=
  b.content.isEmpty || !(stripProps b.content).isEmpty

/-! `toAtJson` pre-processing: `n.content` with the first occurrence of
`\nid:: <uuid>` (the block's own uuid), then the first `\ntitle:: [^\n]+`,
then the first `\nsamepage:: <uuid-pattern>` removed (three `String.replace`
calls on non-global regexes, each replacing only the leftmost match). -/

def removeFirstLit (pat : Str) : Str → Str
  | [] => []
  | c :: s =>
    if pat.isPrefixOf (c :: s) then (c :: s).drop pat.length
    else c :: removeFirstLit pat s

def titleLit : Str := "\ntitle:: ".toList

def removeTitleLine : Str → Str
  | [] => []
  | c :: s =>
    if titleLit.isPrefixOf (c :: s) then
      let rest := (c :: s).drop titleLit.length
      if (rest.takeWhile fun ch => ch != '\n').isEmpty then
        c :: removeTitleLine s
      else
        rest.dropWhile fun ch => ch != '\n'
    else c :: removeTitleLine s

def samepageLit : Str := "\nsamepage:: ".toList

def isHexDigitLower (c : Char) : Bool :=
  (decide ('0' ≤ c) && decide (c ≤ '9')) || (decide ('a' ≤ c) && decide (c ≤ 'f'))

def takeHex : Nat → Str → Option Str
  | 0, s => some s
  | _ + 1, [] => none
  | n + 1, c :: s => if isHexDigitLower c then takeHex n s else none

/-- Match `[0-9a-f]{8}-[0-9a-f]{4}-[0-9a-f]{4}-[0-9a-f]{4}-[0-9a-f]{12}` at the
head of the string; return the remainder on success. -/
def matchUuidTail (s : Str) : Option Str :=
  (takeHex 8 s).bind fun s1 =>
    match s1 with
    | '-' :: s2 =>
      (takeHex 4 s2).bind fun s3 =>
        match s3 with
        | '-' :: s4 =>
          (takeHex 4 s4).bind fun s5 =>
            match s5 with
            | '-' :: s6 =>
              (takeHex 4 s6).bind fun s7 =>
                match s7 with
                | '-' :: s8 => takeHex 12 s8
                | _ => none
            | _ => none
        | _ => none
    | _ => none

def removeSamepageLine : Str → Str
  | [] => []
  | c :: s =>
    if samepageLit.isPrefixOf (c :: s) then
      match matchUuidTail ((c :: s).drop samepageLit.length) with
      | some rest => rest
      | none => c :: removeSamepageLine s
    else c :: removeSamepageLine s

/-- The `preContent` computed by `toAtJson` before invoking the inline markup
codec. -/
def preContent (content uuid : Str) : Str :=
  removeSamepageLine (removeTitleLine
    (removeFirstLit (('\n' :: "id:: ".toList) ++ uuid) content))

/-! ### The annotation serializer (the `normalizedAnnotations.reduce` inside
`applyState`) -/

/-- The `appliedAnnotation` prefix/suffix table. -/
def delims (c : Anno) : Str × Str :=
  if c.type = boldT then ("**".toList, "**".toList)
  else if c.type = highlightingT then ("^^".toList, "^^".toList)
  else if c.type = italicsT then ("_".toList, "_".toList)
  else if c.type = strikethroughT then ("~~".toList, "~~".toList)
  else if c.type = linkT then ("[".toList, "](".toList ++ c.href ++ ")".toList)
  else ([], [])

/-- The in-place shift applied to every not-yet-applied annotation after the
current annotation `c` has been wrapped with a prefix of length `pl` and a
suffix of length `sl`. -/
def shiftAfter (c : Anno) (pl sl : Nat) (a : Anno) : Anno :=
  { a with
    start := a.start + ((if c.start ≤ a.start then pl else 0) +
      (if c.stop ≤ a.start then sl else 0)),
    stop := a.stop + ((if c.start ≤ a.stop then pl else 0) +
      (if c.stop < a.stop then sl else 0)) }

/-- `p.slice(0, c.start) + prefix + p.slice(c.start, c.end) + suffix + p.slice(c.end)`. -/
def wrapOne (p : Str) (c : Anno) (pre suf : Str) : Str :=
  p.take c.start ++ pre ++ (p.drop c.start).take (c.stop - c.start) ++ suf ++
    p.drop c.stop

/-- The serializer `reduce`: process annotations in order, wrapping the
addressed substring and shifting the offsets of every later annotation. -/
def annotate (p : Str) : List Anno → Str
  | [] => p
  | c :: rest =>
    let d := delims c
    annotate (wrapOne p c d.1 d.2)
      (rest.map (shiftAfter c d.1.length d.2.length))
termination_by l => l.length
decreasing_by simp

/-! ### The tree flattener (`flattenTree` of `part_000`) -/

/-- The per-node data kept by `flattenTree` (`{...t minus children, order,
parentUuid}` restricted to the fields the protocol later reads). -/
structure FlatEntry where
  content : Str
  viewType : Option ViewType
  order : Nat
  parentUuid : Str
deriving DecidableEq, Repr

/-- `flattenTree(tree, parentUuid)` keyed by each node's `uuid`:
depth-first, parent before children, `order` the zero-based sibling index. -/
def flattenAux (parentUuid : Str) (order : Nat) :
    List BlockNode → List (Str × FlatEntry)
  | [] => []
  | .mk c u ch vt :: rest =>
    (u, ⟨c, vt, order, parentUuid⟩) :: (flattenAux u 0 ch ++
      flattenAux parentUuid (order + 1) rest)

def flattenTree (tree : List BlockNode) (parentUuid : Str) :
    List (Str × FlatEntry) :=
  flattenAux parentUuid 0 tree

/-! ### The document encoder (`toAtJson` / `calculateState`) -/

variable (parse : Str → InitialSchema) (l2g fresh : Str → Str)

/-- `logseqToSamepage(n.uuid)` followed by allocation of a fresh uuid when the
mapping has no entry (`identifier || v4()...`).  `l2g` returns `[]` for a
missing entry, as the source's promise resolves to `""`; allocation and its
`saveIdMap` persistence are modelled by the oracle `fresh`. -/
def getOrCreateId (u : Str) : Str :=
  if l2g u = [] then fresh u else l2g u

/-- `toAtJson({nodes, level, startIndex, viewType})`. -/
def toAtJson : List BlockNode → Nat → Nat → ViewType → InitialSchema
  | [], _, _, _ => ⟨[], []⟩
  | .mk content uuid children nvt :: rest, level, index, vt =>
    let identifier := getOrCreateId l2g fresh uuid
    let parsed := parse (preContent content uuid)
    let e := index + parsed.content.length
    let childR := toAtJson children (level + 1) e (nvt.getD vt)
    let restR := toAtJson rest level (e + childR.content.length) vt
    ⟨parsed.content ++ childR.content ++ restR.content,
      ({ type := blockT, start := index, stop := e, identifier := identifier,
         level := level, viewType := vt } : Anno) ::
        ((parsed.annos.map fun a =>
            { a with start := a.start + index, stop := a.stop + index }) ++
          (childR.annos ++ restR.annos))⟩

/-- `calculateState(notebookPageId)`: host reads (the page title and the
resolved parent uuid) are passed in; the host block tree is filtered to
content blocks and encoded after the title, with a leading `metadata`
annotation. -/
def calculateState (title parentUuid : Str) (nodes : List BlockNode) :
    InitialSchema :=
  let doc := toAtJson parse l2g fresh (nodes.filter isContentBlock) 0
    title.length ViewType.bullet
  ⟨title ++ doc.content,
    ({ type := metadataT, start := 0, stop := title.length, title := title,
       parent := parentUuid } : Anno) :: doc.annos⟩

/-! ### The tree reconciler (`applyState`): building the expected tree -/

/-- The per-block annotation bucket (`contentAnnotations[uuid]`). -/
structure CA where
  start : Nat
  stop : Nat
  annos : List Anno
deriving DecidableEq, Repr

/-- JS `content.slice(s, e).join("")` on the `Automerge.Text` character array. -/
def sliceJoin (content : Str) (s e : Nat) : Str :=
  (content.drop s).take (e - s)

/-- `insertAtLevel(nodes, level, parentUuid)` restricted to its effect on the
tree: push at the current list when `level === 0 || nodes.length === 0`,
otherwise recurse into the last node's children.  (The write-only `parents`
record the source also fills is never read afterwards and is omitted.) -/
def insertAtLevel (cur : BlockNode) : List BlockNode → Nat → List BlockNode
  | nodes, 0 => nodes ++ [cur]
  | [], _ + 1 => [cur]
  | [.mk c u ch vt], l + 1 => [.mk c u (insertAtLevel cur ch l) vt]
  | x :: y :: rest, l + 1 => x :: insertAtLevel cur (y :: rest) (l + 1)
termination_by nodes _ => sizeOf nodes

/-- Insert into a JS object keyed by strings: replace the value in place when
the key exists, append otherwise. -/
def upsert {α : Type} (k : Str) (v : α) : List (Str × α) → List (Str × α)
  | [] => [(k, v)]
  | (k', v') :: rest =>
    if k' = k then (k, v) :: rest else (k', v') :: upsert k v rest

/-- Lookup in the identifier maps, defaulting to `""` as the idb promise does. -/
def lookupD (m : List (Str × Str)) (k : Str) : Str :=
  (m.lookup k).getD []

/-- `Object.values(contentAnnotations).find(ca => ca.start <= a.start &&
a.end <= ca.end)` followed by `contentAnnotation.annotations.push(a)`: push
onto the first bucket whose range contains the annotation, if any. -/
def addToCA (a : Anno) : List (Str × CA) → List (Str × CA)
  | [] => []
  | (k, ca) :: rest =>
    if ca.start ≤ a.start ∧ a.stop ≤ ca.stop then
      (k, { ca with annos := ca.annos ++ [a] }) :: rest
    else (k, ca) :: addToCA a rest

/-- The accumulating state of the `state.annotations.forEach` loop:
`expectedTree`, `contentAnnotations` (in insertion order) and the data closed
over by `initialPromise` (`none` = the default `Promise.resolve("")`).
The `mapping` record is recoverable as the tree nodes keyed by uuid and is not
carried separately. -/
structure BuildState where
  tree : List BlockNode
  cas : List (Str × CA)
  metaAnno : Option (Str × Str)
deriving DecidableEq

/-- One step of the `forEach` over `state.annotations`. -/
def buildStep (content : Str) (st : BuildState) (a : Anno) : BuildState :=
  if a.type = blockT then
    let cur : BlockNode :=
      .mk (sliceJoin content a.start a.stop) a.identifier [] (some .bullet)
    { tree := insertAtLevel cur st.tree a.level,
      cas := upsert a.identifier ⟨a.start, a.stop, []⟩ st.cas,
      metaAnno := st.metaAnno }
  else if a.type = metadataT then
    { st with metaAnno := some (a.title, a.parent) }
  else
    { st with cas := addToCA a st.cas }

def builtOf (state : InitialSchema) : BuildState :=
  state.annos.foldl (buildStep state.content) ⟨[], [], none⟩

/-- Re-base a bucket's annotations to block-relative offsets
(`start: a.start - offset, end: a.end - offset`). -/
def normalizeCA (ca : CA) : List Anno :=
  ca.annos.map fun a =>
    { a with start := a.start - ca.start, stop := a.stop - ca.start }

/-! The serialization pass (`Object.entries(contentAnnotations).forEach`)
mutates `mapping[blockUid].content`, i.e. the unique tree node carrying that
uuid; it is modelled as a map over the tree replacing each node's content by
its serialized form when its uuid owns a bucket. -/

mutual

def serializeNode (cas : List (Str × CA)) : BlockNode → BlockNode
  | .mk c u ch vt =>
    .mk (match cas.lookup u with
          | some ca => annotate c (normalizeCA ca)
          | none => c)
      u (serializeList cas ch) vt

def serializeList (cas : List (Str × CA)) : List BlockNode → List BlockNode
  | [] => []
  | n :: rest => serializeNode cas n :: serializeList cas rest

end

/-- The desired tree with per-block serialized raw-markup content. -/
def desiredTreeOf (state : InitialSchema) : List BlockNode :=
  serializeList (builtOf state).cas (builtOf state).tree

/-- `Object.fromEntries`: later duplicate keys overwrite the value, the key
keeps its first position. -/
def objFromEntries {α : Type} (l : List (Str × α)) : List (Str × α) :=
  l.foldl (fun acc p => upsert p.1 p.2 acc) []

/-- `expectedTreeMapping`. -/
def expMapOf (pageId : Str) (state : InitialSchema) : List (Str × FlatEntry) :=
  objFromEntries
    ((flattenTree (desiredTreeOf state) pageId).filter fun p => !p.1.isEmpty)

/-- `actualTreeMapping`. -/
def actMapOf (pageId : Str) (actualNodes : List BlockNode) :
    List (Str × FlatEntry) :=
  objFromEntries (flattenTree (actualNodes.filter isContentBlock) pageId)

/-- `expectedSamepageToLogseq` (as first computed, before creates mutate it). -/
def eS2LOf (g2lM : List (Str × Str)) (pageId : Str) (state : InitialSchema) :
    List (Str × Str) :=
  objFromEntries ((expMapOf pageId state).map fun p => (p.1, lookupD g2lM p.1))

/-- `uuidsToCreate = Object.entries(expectedSamepageToLogseq).filter(([, k]) =>
!k || !actualTreeMapping[k])`. -/
def toCreateOf (g2lM : List (Str × Str)) (pageId : Str) (state : InitialSchema)
    (actualNodes : List BlockNode) : List (Str × Str) :=
  (eS2LOf g2lM pageId state).filter fun p =>
    p.2.isEmpty || ((actMapOf pageId actualNodes).lookup p.2).isNone

/-- `expectedUuids = new Set(Object.values(expectedSamepageToLogseq).filter(r => !!r))`. -/
def expectedUuidsOf (g2lM : List (Str × Str)) (pageId : Str)
    (state : InitialSchema) : List Str :=
  ((eS2LOf g2lM pageId state).map Prod.snd).filter fun r => !r.isEmpty

/-- `uuidsToDelete = Object.keys(actualTreeMapping).filter(k => !expectedUuids.has(k))`. -/
def toDeleteOf (g2lM : List (Str × Str)) (pageId : Str) (state : InitialSchema)
    (actualNodes : List BlockNode) : List Str :=
  ((actMapOf pageId actualNodes).map Prod.fst).filter fun k =>
    !decide (k ∈ expectedUuidsOf g2lM pageId state)

/-- `uuidsToUpdate = Object.entries(expectedSamepageToLogseq).filter(([, k]) =>
!!actualTreeMapping[k])`. -/
def toUpdateOf (g2lM : List (Str × Str)) (pageId : Str) (state : InitialSchema)
    (actualNodes : List BlockNode) : List (Str × Str) :=
  (eS2LOf g2lM pageId state).filter fun p =>
    ((actMapOf pageId actualNodes).lookup p.2).isSome

def defaultEntry : FlatEntry := ⟨[], none, 0, []⟩

def lookupEntry (m : List (Str × FlatEntry)) (k : Str) : FlatEntry :=
  (m.lookup k).getD defaultEntry

/-! ### The emitted operation list and its sequential execution -/

/-- The static data closed over by one `uuidsToUpdate` thunk: the
`expectedTreeMapping` entry and the `actualTreeMapping` entry (the samepage
parent uuid is resolved against `expectedSamepageToLogseq` only when the thunk
runs, since earlier creates mutate that object). -/
structure UpdData where
  spUuid : Str
  logseqUuid : Str
  spParent : Str
  order : Nat
  content : Str
  actualParent : Str
  actualOrder : Nat
  actualContent : Str
deriving DecidableEq, Repr

/-- One element of the `promises` array. -/
inductive Op
  | metaNoop
  | metaOp (title parent : Str)
  | del (uuid : Str)
  | create (spUuid parentSp : Str) (order : Nat) (content : Str)
  | upd (d : UpdData)
deriving DecidableEq, Repr

/-- `initialPromise` (the default resolves immediately; a metadata annotation
replaces it with the title-reconciliation closure). -/
def metaOpOf (state : InitialSchema) : Op :=
  match (builtOf state).metaAnno with
  | some (t, p) => Op.metaOp t p
  | none => Op.metaNoop

/-- The ordered `promises` array of `applyState`: the initial (metadata)
promise, then one delete per `uuidsToDelete`, then one create per
`uuidsToCreate`, then one update/move thunk per `uuidsToUpdate`. -/
def opsOf (g2lM : List (Str × Str)) (pageId : Str) (state : InitialSchema)
    (actualNodes : List BlockNode) : List Op :=
  [metaOpOf state] ++
    (toDeleteOf g2lM pageId state actualNodes).map Op.del ++
    (toCreateOf g2lM pageId state actualNodes).map (fun p =>
      let e := lookupEntry (expMapOf pageId state) p.1
      Op.create p.1 e.parentUuid e.order e.content) ++
    (toUpdateOf g2lM pageId state actualNodes).map fun p =>
      let e := lookupEntry (expMapOf pageId state) p.1
      let a := lookupEntry (actMapOf pageId actualNodes) p.2
      Op.upd ⟨p.1, p.2, e.parentUuid, e.order, e.content, a.parentUuid,
        a.order, a.content⟩

/-- A host mutation call (the Logseq editor operations the op list performs;
the several concrete insertion APIs — `insertBlock` before a sibling vs
`appendBlockInPage` plus the `id` property upsert — are collapsed into one
`insertBlock` carrying the data that selects between them). -/
inductive HostCall
  | removeBlock (uuid : Str)
  | insertBlock (parentLocal : Str) (order : Nat) (content : Str)
  | moveBlock (uuid parentLocal : Str)
  | updateBlock (uuid : Str) (content : Str)
  | renamePage (oldTitle newTitle : Str)
  | updateTitleBlock (uuid : Str) (title : Str)
  | upsertSamepageProp (uuid : Str)
deriving DecidableEq, Repr

/-- Host responses: read-only context consumed by the metadata op
(`existingTitle`, the container block's uuid, a block already claiming the
samepage property) and an oracle deciding each mutation call's outcome
(`.ok returnedUuid` or `.error message`). -/
structure HostEnv where
  behavior : HostCall → Except Str Str
  pageTitle : Option Str
  pageBlockUuid : Str
  staleClaimant : Option Str

/-- Mutable state threaded through the promise chain: the two idb identifier
maps, the (mutated-by-creates) `expectedSamepageToLogseq` object, and the log
of host mutation calls performed so far. -/
structure RunState where
  l2gM : List (Str × Str)
  g2lM : List (Str × Str)
  spToLocal : List (Str × Str)
  muts : List HostCall
deriving DecidableEq, Repr

/-- idb `delete`: drop the entry for a key. -/
def eraseKey (k : Str) : List (Str × Str) → List (Str × Str)
  | [] => []
  | (k', v') :: rest => if k' = k then rest else (k', v') :: eraseKey k rest

def failMeta : Str := "Failed to initialize page metadata: ".toList

def failRemove (u : Str) : Str :=
  "Failed to remove block ".toList ++ u ++ ": ".toList

def failInsert (sp : Str) : Str :=
  "Failed to insert block ".toList ++ sp ++ ": ".toList

def failMove (sp : Str) : Str :=
  "Failed to move block ".toList ++ sp ++ ": ".toList

def failUpdate (sp : Str) : Str :=
  "Failed to update block ".toList ++ sp ++ ": ".toList

/-- Perform one host mutation call, wrapping a failure with the op's
`.catch` message and logging the call on success. -/
def doCall (env : HostEnv) (wrap : Str → Str) (c : HostCall) (st : RunState) :
    Except Str (RunState × Str) :=
  match env.behavior c with
  | .ok r => .ok ({ st with muts := st.muts ++ [c] }, r)
  | .error m => .error (wrap m)

/-- Execute one op of the promise chain against the host. -/
def execOp (env : HostEnv) (pageId : Str) (st : RunState) :
    Op → Except Str RunState
  | .metaNoop => .ok st
  | .metaOp title parentA =>
    match env.pageTitle with
    | none => .error (failMeta ++ "Missing page with id: ".toList ++ pageId)
    | some existing =>
      if existing = title then .ok st
      else if parentA ≠ [] then
        match doCall env (fun m => failMeta ++ m)
            (.updateTitleBlock env.pageBlockUuid title) st with
        | .ok (st1, _) => .ok st1
        | .error e => .error e
      else
        match (match env.staleClaimant with
               | some b => doCall env (fun m => failMeta ++ m)
                   (.upsertSamepageProp b) st
               | none => .ok (st, [])) with
        | .error e => .error e
        | .ok (st1, _) =>
          match doCall env (fun m => failMeta ++ m)
              (.renamePage existing title) st1 with
          | .ok (st2, _) => .ok st2
          | .error e => .error e
  | .del u =>
    match doCall env (fun m => failRemove u ++ m) (.removeBlock u) st with
    | .error e => .error e
    | .ok (st1, _) =>
      let sp := lookupD st1.l2gM u
      .ok { st1 with l2gM := eraseKey u st1.l2gM,
                     g2lM := eraseKey sp st1.g2lM }
  | .create sp parentSp order content =>
    let parentLocal :=
      if parentSp = pageId then pageId else lookupD st.spToLocal parentSp
    match doCall env (fun m => failInsert sp ++ m)
        (.insertBlock parentLocal order content) st with
    | .error e => .error e
    | .ok (st1, newUuid) =>
      .ok { st1 with
        l2gM := upsert newUuid sp st1.l2gM,
        g2lM := upsert sp newUuid st1.g2lM,
        spToLocal := upsert sp newUuid st1.spToLocal }
  | .upd d =>
    let parentLocal :=
      if d.spParent = pageId then d.spParent else lookupD st.spToLocal d.spParent
    if d.actualParent ≠ parentLocal ∨ d.actualOrder ≠ d.order then
      match doCall env (fun m => failMove d.spUuid ++ m)
          (.moveBlock d.logseqUuid parentLocal) st with
      | .ok (st1, _) => .ok st1
      | .error e => .error e
    else if d.actualContent ≠ d.content then
      match doCall env (fun m => failUpdate d.spUuid ++ m)
          (.updateBlock d.logseqUuid d.content) st with
      | .ok (st1, _) => .ok st1
      | .error e => .error e
    else .ok st

/-- `promises.reduce((p, c) => p.then(c), Promise.resolve(""))`: run each op to
completion before the next; a rejection skips the remaining thunks, keeping the
state already reached. -/
def runOps (env : HostEnv) (pageId : Str) :
    List Op → RunState → RunState × Option Str
  | [], st => (st, none)
  | o :: rest, st =>
    match execOp env pageId st o with
    | .ok st1 => runOps env pageId rest st1
    | .error e => (st, some e)

/-- The whole of `applyState`'s mutation phase: compute the op list from the
decoded state and the host tree, seed the run state with the pre-read
identifier maps and `expectedSamepageToLogseq`, and run the promise chain. -/
def runApplyState (env : HostEnv) (l2gM g2lM : List (Str × Str)) (pageId : Str)
    (state : InitialSchema) (actualNodes : List BlockNode) :
    RunState × Option Str :=
  runOps env pageId (opsOf g2lM pageId state actualNodes)
    ⟨l2gM, g2lM, eS2LOf g2lM pageId state, []⟩

/-- Well-formedness of the external inline markup codec assumed for the offset
invariant: every annotation it produces lies within its produced plain text. -/
def ParseBounded (parse : Str → InitialSchema) : Prop :=
  ∀ s : Str, ∀ a ∈ (parse s).annos,
    a.start ≤ a.stop ∧ a.stop ≤ (parse s).content.length

/-- A concrete block annotation and a concrete out-of-range bold annotation
for the witness below. -/
def blockZeroOne : Anno :=
  { type := blockT, start := 0, stop := 1, identifier := "g".toList }

def boldOneTwo : Anno := { type := boldT, start := 1, stop := 2 }

/-- The error tags each op kind can produce (`.catch` wrappers in the source):
`metaNoop` has none (it cannot fail), `upd` can fail as a move or as an
update. -/
def errTags : Op → List Str
  | .metaNoop => []
  | .metaOp _ _ => [failMeta]
  | .del u => [failRemove u]
  | .create sp _ _ _ => [failInsert sp]
  | .upd d => [failMove d.spUuid, failUpdate d.spUuid]

/-- A host environment whose every call fails, for the witness below. -/
def failingEnv : HostEnv :=
  ⟨fun _ => .error "boom".toList, some "t".toList, "pb".toList, none⟩

/-- The depth-first uuid list of a tree. -/
def treeUuids : List BlockNode → List Str
  | [] => []
  | .mk _ u ch _ :: rest => u :: (treeUuids ch ++ treeUuids rest)

/-- The identifiers of the `block`-type annotations of a document, in order. -/
def blockIdsOf (l : List Anno) : List Str :=
  (l.filter fun a => decide (a.type = blockT)).map (·.identifier)

/-- Concrete inputs for the C8 witness. -/
def stateC8 : InitialSchema :=
  ⟨"a".toList,
    [{ type := blockT, start := 0, stop := 1, identifier := "g".toList }]⟩

def actC8 : List BlockNode := [.mk "b".toList "u".toList [] none]

def g2lC8 : List (Str × Str) := [("g".toList, "u".toList)]

def l2gC8 : List (Str × Str) := [("u".toList, "g".toList)]

/-- The phase of an op in the emitted list: metadata, delete, create,
update/move. -/
def opRank : Op → Nat
  | .metaNoop => 0
  | .metaOp _ _ => 0
  | .del _ => 1
  | .create _ _ _ _ => 2
  | .upd _ => 3

/-- A one-block document whose identifier has no local mapping, so the block
is classified for creation. -/
def stateC3 : InitialSchema :=
  ⟨"a".toList,
    [{ type := blockT, start := 0, stop := 1, identifier := "h".toList }]⟩

/-- Append the forest `ys` at depth `L` along the rightmost spine (the closed
form of iterating `insertAtLevel`): at level `0` push at the current list,
otherwise descend into the last node's children. -/
def graft (ys : List BlockNode) : List BlockNode → Nat → List BlockNode
  | T, 0 => T ++ ys
  | [], _ + 1 => ys
  | [.mk c u ch vt], l + 1 => [.mk c u (graft ys ch l) vt]
  | x :: y :: rest, l + 1 => x :: graft ys (y :: rest) (l + 1)
termination_by T _ => sizeOf T

/-- The rightmost spine of the forest is at least `L` nodes deep, so an
insertion at level `L` lands at depth exactly `L`. -/
def spineOK : List BlockNode → Nat → Bool
  | _, 0 => true
  | [], _ + 1 => false
  | [.mk _ _ ch _], l + 1 => spineOK ch l
  | _ :: y :: rest, l + 1 => spineOK (y :: rest) (l + 1)
termination_by T _ => sizeOf T

/-- The plain text emitted by `toAtJson` — the concatenation, in depth-first
order, of each block's parsed content (independent of level and offset). -/
def docContent : List BlockNode → Str
  | [] => []
  | .mk c u ch _ :: rest =>
    (parse (preContent c u)).content ++ docContent ch ++ docContent rest

/-- The forest the reconciler's `forEach` builds back from the `block`
annotations that `toAtJson` emits for this node list starting at offset `i`:
the same skeleton with contents sliced out of the transferred document and
uuids mapped through the identifier mapping. -/
def decodeTree (content : Str) : List BlockNode → Nat → List BlockNode
  | [], _ => []
  | .mk c u ch _ :: rest, i =>
    let e := i + (parse (preContent c u)).content.length
    .mk (sliceJoin content i e) (getOrCreateId l2g fresh u)
        (decodeTree content ch e) (some .bullet) ::
      decodeTree content rest (e + (docContent parse ch).length)

/-- The `contentAnnotations` buckets the reconciler collects for this node
list: one bucket per block, keyed by its mapped uuid, spanning its content
slice, holding its inline annotations re-based to document offsets. -/
def casList : List BlockNode → Nat → List (Str × CA)
  | [], _ => []
  | .mk c u ch _ :: rest, i =>
    let s := parse (preContent c u)
    let e := i + s.content.length
    (getOrCreateId l2g fresh u,
      ⟨i, e, s.annos.map fun a =>
        { a with start := a.start + i, stop := a.stop + i }⟩) ::
      (casList ch e ++ casList rest (e + (docContent parse ch).length))

/-- Two forests have the same tree shape (same sibling counts and nesting,
ignoring contents, uuids and view types). -/
def sameShape : List BlockNode → List BlockNode → Bool
  | [], [] => true
  | .mk _ _ ch _ :: rest, .mk _ _ ch' _ :: rest' =>
    sameShape ch ch' && sameShape rest rest'
  | _, _ => false
termination_by a _ => sizeOf a

/-- All nodes of a forest in depth-first order. -/
def nodesList : List BlockNode → List BlockNode
  | [] => []
  | .mk c u ch vt :: rest => .mk c u ch vt :: (nodesList ch ++ nodesList rest)

/-- A flat document whose four block annotations carry levels `0,1,1,0`. -/
def doc5 : InitialSchema :=
  ⟨"abcd".toList,
    [{ type := blockT, start := 0, stop := 1, identifier := "1".toList,
       level := 0 },
     { type := blockT, start := 1, stop := 2, identifier := "2".toList,
       level := 1 },
     { type := blockT, start := 2, stop := 3, identifier := "3".toList,
       level := 1 },
     { type := blockT, start := 3, stop := 4, identifier := "4".toList,
       level := 0 }]⟩

/-- One root with two children, then a second root sibling. -/
def tree5 : List BlockNode :=
  [.mk "a".toList "1".toList
    [.mk "b".toList "2".toList [] (some .bullet),
     .mk "c".toList "3".toList [] (some .bullet)] (some .bullet),
   .mk "d".toList "4".toList [] (some .bullet)]

/-- The mapped identifiers of a forest in depth-first order: the keys the
encoder assigns and the reconciler's buckets use. -/
def gids (ns : List BlockNode) : List Str :=
  (treeUuids ns).map (getOrCreateId l2g fresh)

/-- The encoder's own forest with every uuid replaced by its mapped global
identifier, contents preserved, view types normalised to `bullet`: the exact
shape `applyState` is expected to rebuild. -/
def relabel : List BlockNode → List BlockNode
  | [] => []
  | .mk c u ch _ :: rest =>
    .mk c (getOrCreateId l2g fresh u) (relabel ch) (some .bullet) ::
      relabel rest

/-! ## Verification -/

/-! ### C1: the serializer's offset-propagation rule -/

unseal annotate in
/-- C1: after wrapping the substring addressed by the current annotation `c`
with its type's prefix/suffix pair, every not-yet-applied annotation `a` is
shifted as follows: `a.start` increases by the prefix length exactly when
`a.start ≥ c.start`, plus the suffix length exactly when `a.start ≥ c.end`;
`a.end` increases by the prefix length exactly when `a.end ≥ c.start`, plus
the suffix length exactly when `a.end > c.end` (strict).  In particular, for
`"helloworld"` with `bold[0,5)` and `link[5,10) href="x"`, processed in that
order, the serialized output is `"**hello**[world](x)"` (the link's placement
is not double-shifted). -/
theorem serializer_shift_rule_and_adjacent_boundary :
    (∀ (p : Str) (c : Anno) (rest : List Anno),
      annotate p (c :: rest) =
        annotate (wrapOne p c (delims c).1 (delims c).2)
          (rest.map fun a =>
            { a with
              start := a.start +
                ((if a.start ≥ c.start then (delims c).1.length else 0) +
                 (if a.start ≥ c.stop then (delims c).2.length else 0)),
              stop := a.stop +
                ((if a.stop ≥ c.start then (delims c).1.length else 0) +
                 (if a.stop > c.stop then (delims c).2.length else 0)) })) ∧
    annotate "helloworld".toList
      [{ type := boldT, start := 0, stop := 5 },
       { type := linkT, start := 5, stop := 10, href := "x".toList }] =
      "**hello**[world](x)".toList := by
  constructor
  · intro p c rest
    simp only [annotate]
    congr 1
  · decide

/-! ### C6: the content-block filter -/

unseal stripProps in
/-- C6 counterexample: a block with empty raw content is kept by
`isContentBlock` (`!b.content` is truthy), even though its text is not
non-empty after property stripping — refuting the claimed iff at this block. -/
theorem isContentBlock_empty_kept :
    ¬ (isContentBlock (BlockNode.mk [] "u".toList [] none) = true ↔
        stripProps (BlockNode.mk [] "u".toList [] none).content ≠ []) := by
  decide

/-- C6 (amended): the filter used by both the encoder and the reconciler keeps
a block iff its raw text is empty, or is non-empty after stripping all
`key:: value` property lines. -/
theorem isContentBlock_iff (b : BlockNode) :
    isContentBlock b = true ↔ (b.content = [] ∨ stripProps b.content ≠ []) := by
  rcases b with ⟨c, u, ch, vt⟩
  simp [isContentBlock, BlockNode.content, List.isEmpty_iff]

/-! ### C7: the encoder's property-line strip -/

theorem removeFirstLit_of_head_not_mem {c0 : Char} {pat s : Str}
    (hpat : pat.head? = some c0) (h : c0 ∉ s) : removeFirstLit pat s = s := by
  induction s with
  | nil => rfl
  | cons c s ih =>
    rw [removeFirstLit, if_neg, ih (fun hm => h (List.mem_cons_of_mem _ hm))]
    intro hpre
    rw [List.isPrefixOf_iff_prefix] at hpre
    rcases pat with _ | ⟨p0, pat'⟩
    · simp at hpat
    · obtain rfl : p0 = c0 := by simpa using hpat
      rcases hpre with ⟨t, ht⟩
      simp only [List.cons_append, List.cons.injEq] at ht
      exact h (ht.1 ▸ List.mem_cons_self _ _)

theorem removeTitleLine_of_no_newline {s : Str} (h : '\n' ∉ s) :
    removeTitleLine s = s := by
  induction s with
  | nil => rfl
  | cons c s ih =>
    rw [removeTitleLine, if_neg, ih (fun hm => h (List.mem_cons_of_mem _ hm))]
    intro hpre
    rw [List.isPrefixOf_iff_prefix] at hpre
    rcases hpre with ⟨t, ht⟩
    rw [show titleLit = '\n' :: "title:: ".toList from rfl] at ht
    simp only [List.cons_append, List.cons.injEq] at ht
    exact h (ht.1 ▸ List.mem_cons_self _ _)

theorem removeSamepageLine_of_no_newline {s : Str} (h : '\n' ∉ s) :
    removeSamepageLine s = s := by
  induction s with
  | nil => rfl
  | cons c s ih =>
    rw [removeSamepageLine]
    rw [if_neg, ih (fun hm => h (List.mem_cons_of_mem _ hm))]
    intro hpre
    rw [List.isPrefixOf_iff_prefix] at hpre
    rcases hpre with ⟨t, ht⟩
    rw [show samepageLit = '\n' :: "samepage:: ".toList from rfl] at ht
    simp only [List.cons_append, List.cons.injEq] at ht
    exact h (ht.1 ▸ List.mem_cons_self _ _)

/-- C7 counterexample: for raw content `"a\n"` (and any uuid) the text handed
to the inline markup codec is `"a\n"`, not `"a"`: the trailing newline is not
stripped before parsing. -/
theorem preContent_trailing_newline_kept :
    preContent "a\n".toList "u".toList = "a\n".toList ∧
    "a\n".toList ≠ "a".toList := by
  constructor
  · rfl
  · decide

/-- C7 (amended): before running the inline markup parser the encoder removes
the first occurrence of `\nid:: <the block's own uuid>`, then the first
`\ntitle:: <rest-of-line>`, then the first `\nsamepage:: <uuid>`; nothing is
removed from newline-free content, later duplicate property lines are kept,
an `id::` line with a different uuid is kept, and a trailing newline is kept. -/
theorem preContent_spec :
    (∀ content uuid : Str, '\n' ∉ content → preContent content uuid = content) ∧
    preContent "a\nid:: u".toList "u".toList = "a".toList ∧
    preContent "x\ntitle:: abc".toList "u".toList = "x".toList ∧
    preContent "x\nsamepage:: 01234567-89ab-cdef-0123-456789abcdef".toList
      "u".toList = "x".toList ∧
    preContent "x\ntitle:: a\ntitle:: b".toList "u".toList =
      "x\ntitle:: b".toList ∧
    preContent "a\nid:: v".toList "u".toList = "a\nid:: v".toList ∧
    preContent "a\n".toList "u".toList = "a\n".toList := by
  refine ⟨?_, by decide, by decide, by decide, by decide, by decide, by decide⟩
  intro content uuid h
  unfold preContent
  rw [removeFirstLit_of_head_not_mem
      (show (('\n' :: "id:: ".toList) ++ uuid).head? = some '\n' from rfl) h,
    removeTitleLine_of_no_newline h, removeSamepageLine_of_no_newline h]

/-- Witness for `preContent_spec`: its universally quantified conjunct applied
at newline-free content. -/
theorem preContent_spec_witness :
    '\n' ∉ "abc".toList ∧ preContent "abc".toList "u".toList = "abc".toList :=
  ⟨by decide, preContent_spec.1 "abc".toList "u".toList (by decide)⟩

/-! ### C9: the offset invariant of encoder output -/

theorem toAtJson_bounds {parse : Str → InitialSchema} {l2g fresh : Str → Str}
    (hp : ParseBounded parse) (ns : List BlockNode) (level idx : Nat)
    (vt : ViewType) :
    ∀ a ∈ (toAtJson parse l2g fresh ns level idx vt).annos,
      idx ≤ a.start ∧ a.start ≤ a.stop ∧
        a.stop ≤ idx + (toAtJson parse l2g fresh ns level idx vt).content.length := by
  induction ns, level, idx, vt using toAtJson.induct parse l2g fresh with
  | case1 level idx vt =>
    intro a ha
    simp [toAtJson] at ha
  | case2 content uuid children nvt rest level idx vt parsed e childR ihc ihc2 ihr =>
    clear ihc2
    have he : e = idx + (parse (preContent content uuid)).content.length := rfl
    have hcr : childR = toAtJson parse l2g fresh children (level + 1) e
        (nvt.getD vt) := rfl
    rw [he] at ihc ihr hcr
    rw [hcr] at ihr
    intro a ha
    simp only [toAtJson, List.mem_cons, List.mem_append, List.mem_map] at ha
    simp only [toAtJson, List.length_append]
    rcases ha with rfl | ⟨a0, ha0, rfl⟩ | ha | ha
    · simp
      omega
    · have hb := hp _ _ ha0
      simp
      omega
    · have hb := ihc a ha
      omega
    · have hb := ihr a ha
      omega

/-- C9: for every annotation `a` in a document produced by the encoder
`calculateState` — the metadata annotation, the block annotations and the
re-based inline annotations — `0 ≤ a.start ≤ a.end ≤ |content|`, provided the
external inline codec emits annotations within its own plain text. -/
theorem calculateState_offset_invariant {parse : Str → InitialSchema}
    {l2g fresh : Str → Str} (hp : ParseBounded parse) (title parentUuid : Str)
    (nodes : List BlockNode) :
    ∀ a ∈ (calculateState parse l2g fresh title parentUuid nodes).annos,
      0 ≤ a.start ∧ a.start ≤ a.stop ∧
        a.stop ≤ (calculateState parse l2g fresh title parentUuid nodes).content.length := by
  intro a ha
  simp only [calculateState, List.mem_cons, List.length_append] at ha ⊢
  rcases ha with rfl | ha
  · simp
  · have hb := toAtJson_bounds hp (nodes.filter isContentBlock) 0 title.length
      ViewType.bullet a ha
    omega

/-- Witness for `calculateState_offset_invariant`: the invariant at a concrete
one-block tree under the trivial inline codec. -/
theorem calculateState_offset_invariant_witness :
    ParseBounded (fun s => ⟨s, []⟩) ∧
    ∀ a ∈ (calculateState (fun s => ⟨s, []⟩) (fun _ => "g".toList)
        (fun _ => "h".toList) "t".toList "p".toList
        [BlockNode.mk "a".toList "u".toList [] none]).annos,
      0 ≤ a.start ∧ a.start ≤ a.stop ∧
        a.stop ≤ (calculateState (fun s => ⟨s, []⟩) (fun _ => "g".toList)
          (fun _ => "h".toList) "t".toList "p".toList
          [BlockNode.mk "a".toList "u".toList [] none]).content.length :=
  ⟨fun _ a ha => absurd ha (List.not_mem_nil a),
   calculateState_offset_invariant (fun _ a ha => absurd ha (List.not_mem_nil a))
     "t".toList "p".toList [BlockNode.mk "a".toList "u".toList [] none]⟩

/-! ### C10: out-of-range non-block annotations are ignored -/

theorem mem_upsert {α : Type} {p : Str × α} {k : Str} {v : α} :
    ∀ {l : List (Str × α)}, p ∈ upsert k v l → p = (k, v) ∨ p ∈ l
  | [], h => by simpa [upsert] using h
  | (k', v') :: rest, h => by
    rw [upsert] at h
    split at h
    · rcases List.mem_cons.mp h with h | h
      · exact Or.inl h
      · exact Or.inr (List.mem_cons_of_mem _ h)
    · rcases List.mem_cons.mp h with h | h
      · exact Or.inr (h ▸ List.mem_cons_self _ _)
      · rcases mem_upsert h with h | h
        · exact Or.inl h
        · exact Or.inr (List.mem_cons_of_mem _ h)

theorem mem_addToCA {a : Anno} {p : Str × CA} :
    ∀ {l : List (Str × CA)}, p ∈ addToCA a l →
      ∃ q ∈ l, p.1 = q.1 ∧ p.2.start = q.2.start ∧ p.2.stop = q.2.stop
  | [], h => by simp [addToCA] at h
  | (k, ca) :: rest, h => by
    rw [addToCA] at h
    split at h
    · rcases List.mem_cons.mp h with rfl | h
      · exact ⟨(k, ca), List.mem_cons_self _ _, rfl, rfl, rfl⟩
      · exact ⟨p, List.mem_cons_of_mem _ h, rfl, rfl, rfl⟩
    · rcases List.mem_cons.mp h with rfl | h
      · exact ⟨(k, ca), List.mem_cons_self _ _, rfl, rfl, rfl⟩
      · obtain ⟨q, hq, h1⟩ := mem_addToCA h
        exact ⟨q, List.mem_cons_of_mem _ hq, h1⟩

theorem addToCA_of_not_contained {a : Anno} :
    ∀ {l : List (Str × CA)},
      (∀ p ∈ l, ¬(p.2.start ≤ a.start ∧ a.stop ≤ p.2.stop)) → addToCA a l = l
  | [], _ => rfl
  | (k, ca) :: rest, h => by
    rw [addToCA, if_neg (h (k, ca) (List.mem_cons_self _ _)),
      addToCA_of_not_contained fun p hp => h p (List.mem_cons_of_mem _ hp)]

theorem buildStep_block {content : Str} {st : BuildState} {a : Anno}
    (h : a.type = blockT) :
    buildStep content st a =
      { tree := insertAtLevel
          (.mk (sliceJoin content a.start a.stop) a.identifier [] (some .bullet))
          st.tree a.level,
        cas := upsert a.identifier ⟨a.start, a.stop, []⟩ st.cas,
        metaAnno := st.metaAnno } := by
  simp only [buildStep]
  rw [if_pos h]

theorem buildStep_metadata {content : Str} {st : BuildState} {a : Anno}
    (h1 : a.type ≠ blockT) (h2 : a.type = metadataT) :
    buildStep content st a = { st with metaAnno := some (a.title, a.parent) } := by
  simp only [buildStep]
  rw [if_neg h1, if_pos h2]

theorem buildStep_other {content : Str} {st : BuildState} {a : Anno}
    (h1 : a.type ≠ blockT) (h2 : a.type ≠ metadataT) :
    buildStep content st a = { st with cas := addToCA a st.cas } := by
  simp only [buildStep]
  rw [if_neg h1, if_neg h2]

/-- Every bucket in the build state after folding a list of annotations has the
range either of a bucket already present or of a `block` annotation in the
list. -/
theorem buildFold_cas_from (content : Str) :
    ∀ (l : List Anno) (st : BuildState),
      ∀ p ∈ (l.foldl (buildStep content) st).cas,
        (∃ q ∈ st.cas, p.2.start = q.2.start ∧ p.2.stop = q.2.stop) ∨
        (∃ b ∈ l, b.type = blockT ∧ p.2.start = b.start ∧ p.2.stop = b.stop) := by
  intro l
  induction l with
  | nil =>
    intro st p hp
    exact Or.inl ⟨p, hp, rfl, rfl⟩
  | cons a l ih =>
    intro st p hp
    simp only [List.foldl_cons] at hp
    rcases ih (buildStep content st a) p hp with ⟨q, hq, h1, h2⟩ | ⟨b, hb, h3⟩
    · by_cases hblock : a.type = blockT
      · rw [buildStep_block hblock] at hq
        rcases mem_upsert hq with rfl | hq'
        · exact Or.inr ⟨a, List.mem_cons_self _ _, hblock, h1, h2⟩
        · exact Or.inl ⟨q, hq', h1, h2⟩
      · by_cases hmeta : a.type = metadataT
        · rw [buildStep_metadata hblock hmeta] at hq
          exact Or.inl ⟨q, hq, h1, h2⟩
        · rw [buildStep_other hblock hmeta] at hq
          obtain ⟨q', hq', he1, he2, he3⟩ := mem_addToCA hq
          exact Or.inl ⟨q', hq', h1.trans he2, h2.trans he3⟩
    · exact Or.inr ⟨b, List.mem_cons_of_mem _ hb, h3⟩

/-- C10: a non-`block`, non-`metadata` annotation whose `[start, end)` range is
not contained in any block annotation's range is silently ignored by
`applyState`: it is attached to no block's bucket, so the computed build state
and the emitted op list are the same as if it were absent, and it never causes
an error. -/
theorem uncontained_annotation_ignored
    (g2lM : List (Str × Str)) (pageId content : Str) (l1 l2 : List Anno)
    (a : Anno) (actualNodes : List BlockNode)
    (hb : a.type ≠ blockT) (hm : a.type ≠ metadataT)
    (hout : ∀ b ∈ l1 ++ a :: l2, b.type = blockT →
      ¬(b.start ≤ a.start ∧ a.stop ≤ b.stop)) :
    builtOf ⟨content, l1 ++ a :: l2⟩ = builtOf ⟨content, l1 ++ l2⟩ ∧
    opsOf g2lM pageId ⟨content, l1 ++ a :: l2⟩ actualNodes =
      opsOf g2lM pageId ⟨content, l1 ++ l2⟩ actualNodes := by
  have hstep : ∀ st : BuildState,
      (∀ p ∈ st.cas, ¬(p.2.start ≤ a.start ∧ a.stop ≤ p.2.stop)) →
      buildStep content st a = st := by
    intro st hst
    rw [buildStep_other hb hm, addToCA_of_not_contained hst]
  have hbuilt : builtOf ⟨content, l1 ++ a :: l2⟩ = builtOf ⟨content, l1 ++ l2⟩ := by
    simp only [builtOf, List.foldl_append, List.foldl_cons]
    congr 1
    apply hstep
    intro p hp
    rcases buildFold_cas_from content l1 ⟨[], [], none⟩ p hp with
      ⟨q, hq, _, _⟩ | ⟨b, hbl, hbt, h1, h2⟩
    · simp at hq
    · rw [h1, h2]
      exact hout b (List.mem_append_left _ hbl) hbt
  refine ⟨hbuilt, ?_⟩
  simp only [opsOf, metaOpOf, toDeleteOf, toCreateOf, toUpdateOf,
    expectedUuidsOf, eS2LOf, expMapOf, desiredTreeOf, hbuilt]

/-- Witness for `uncontained_annotation_ignored` at a concrete document. -/
theorem uncontained_annotation_ignored_witness :
    (boldOneTwo.type ≠ blockT ∧ boldOneTwo.type ≠ metadataT ∧
      (∀ b ∈ [blockZeroOne] ++ boldOneTwo :: [], b.type = blockT →
        ¬(b.start ≤ boldOneTwo.start ∧ boldOneTwo.stop ≤ b.stop))) ∧
    builtOf ⟨"xy".toList, [blockZeroOne] ++ boldOneTwo :: []⟩ =
      builtOf ⟨"xy".toList, [blockZeroOne] ++ []⟩ := by
  refine ⟨⟨by decide, by decide, by decide⟩, ?_⟩
  exact (uncontained_annotation_ignored [] "p".toList "xy".toList
    [blockZeroOne] [] boldOneTwo []
    (by decide) (by decide) (by decide)).1

/-! ### C4: op failure aborts the chain with a tagged error, keeping the prefix -/

/-- The promise chain runs strictly sequentially: the ops after a prefix are
run in the state the prefix reached, and a rejection in the prefix short-cuts
the rest. -/
theorem runOps_append_eq (env : HostEnv) (pageId : Str) :
    ∀ (l1 l2 : List Op) (st : RunState),
      runOps env pageId (l1 ++ l2) st =
        match runOps env pageId l1 st with
        | (st1, none) => runOps env pageId l2 st1
        | (st1, some e) => (st1, some e) := by
  intro l1
  induction l1 with
  | nil => intro l2 st; simp [runOps]
  | cons o l1 ih =>
    intro l2 st
    simp only [List.cons_append, runOps]
    cases hex : execOp env pageId st o with
    | ok st1 => exact ih l2 st1
    | error e => rfl

theorem execOp_error_tagged (env : HostEnv) (pageId : Str) (st : RunState)
    (o : Op) (e : Str) (h : execOp env pageId st o = .error e) :
    ∃ t ∈ errTags o, ∃ m, e = t ++ m := by
  cases o with
  | metaNoop => simp [execOp] at h
  | metaOp title parentA =>
    refine ⟨failMeta, by simp [errTags], ?_⟩
    rcases hpt : env.pageTitle with _ | existing
    · simp only [execOp, hpt] at h
      exact ⟨_, (Except.error.inj h).symm⟩
    · simp only [execOp, hpt] at h
      by_cases ht : existing = title
      · rw [if_pos ht] at h; simp at h
      · rw [if_neg ht] at h
        by_cases hpar : parentA ≠ []
        · rw [if_pos hpar] at h
          rcases hbc : env.behavior (.updateTitleBlock env.pageBlockUuid title)
            with m | r
          · simp only [doCall, hbc] at h
            exact ⟨_, (Except.error.inj h).symm⟩
          · simp only [doCall, hbc] at h; simp at h
        · rw [if_neg hpar] at h
          rcases hsc : env.staleClaimant with _ | b
          · simp only [hsc] at h
            rcases hbc : env.behavior (.renamePage existing title) with m | r
            · simp only [doCall, hbc] at h
              exact ⟨_, (Except.error.inj h).symm⟩
            · simp only [doCall, hbc] at h; simp at h
          · simp only [hsc] at h
            rcases hbc1 : env.behavior (.upsertSamepageProp b) with m | r
            · simp only [doCall, hbc1] at h
              exact ⟨_, (Except.error.inj h).symm⟩
            · simp only [doCall, hbc1] at h
              rcases hbc2 : env.behavior (.renamePage existing title) with m2 | r2
              · simp only [doCall, hbc2] at h
                exact ⟨_, (Except.error.inj h).symm⟩
              · simp only [doCall, hbc2] at h; simp at h
  | del u =>
    refine ⟨failRemove u, by simp [errTags], ?_⟩
    rcases hbc : env.behavior (.removeBlock u) with m | r
    · simp only [execOp, doCall, hbc] at h
      exact ⟨_, (Except.error.inj h).symm⟩
    · simp only [execOp, doCall, hbc] at h; simp at h
  | create sp psp ord c =>
    refine ⟨failInsert sp, by simp [errTags], ?_⟩
    rcases hbc : env.behavior (.insertBlock
        (if psp = pageId then pageId else lookupD st.spToLocal psp) ord c)
      with m | r
    · simp only [execOp, doCall, hbc] at h
      exact ⟨_, (Except.error.inj h).symm⟩
    · simp only [execOp, doCall, hbc] at h; simp at h
  | upd d =>
    simp only [execOp] at h
    by_cases hmv : d.actualParent ≠ (if d.spParent = pageId then d.spParent
        else lookupD st.spToLocal d.spParent) ∨ d.actualOrder ≠ d.order
    · rw [if_pos hmv] at h
      rcases hbc : env.behavior (.moveBlock d.logseqUuid
          (if d.spParent = pageId then d.spParent
            else lookupD st.spToLocal d.spParent)) with m | r
      · simp only [doCall, hbc] at h
        exact ⟨failMove d.spUuid, by simp [errTags], _,
          (Except.error.inj h).symm⟩
      · simp only [doCall, hbc] at h; simp at h
    · rw [if_neg hmv] at h
      by_cases hcd : d.actualContent ≠ d.content
      · rw [if_pos hcd] at h
        rcases hbc : env.behavior (.updateBlock d.logseqUuid d.content)
          with m | r
        · simp only [doCall, hbc] at h
          exact ⟨failUpdate d.spUuid, by simp [errTags], _,
            (Except.error.inj h).symm⟩
        · simp only [doCall, hbc] at h; simp at h
      · rw [if_neg hcd] at h; simp at h

/-- C4: if a mutation op in the reconciliation chain fails, the run rejects
with that op's wrapped error — a message tagged with the operation kind and
target id (`"Failed to remove block <uuid>: ..."` etc.) — the result does not
depend on the ops after the failing one (they are not executed), and the state
reached by the already-applied prefix is returned unchanged (no rollback). -/
theorem op_failure_aborts_with_tagged_error :
    (∀ (env : HostEnv) (pageId : Str) (pre post : List Op) (o : Op)
        (st st1 : RunState) (e : Str),
      runOps env pageId pre st = (st1, none) →
      execOp env pageId st1 o = .error e →
      runOps env pageId (pre ++ o :: post) st = (st1, some e)) ∧
    (∀ (env : HostEnv) (pageId : Str) (st : RunState) (o : Op) (e : Str),
      execOp env pageId st o = .error e → ∃ t ∈ errTags o, ∃ m, e = t ++ m) := by
  constructor
  · intro env pageId pre post o st st1 e h1 h2
    rw [runOps_append_eq, h1]
    simp only [runOps, h2]
  · exact execOp_error_tagged

/-- Witness for `op_failure_aborts_with_tagged_error`: a failing delete aborts
before a later delete, surfacing the tagged error and the pre-failure state. -/
theorem op_failure_witness :
    runOps failingEnv "p".toList
        ([] ++ Op.del "u".toList :: [Op.del "v".toList]) ⟨[], [], [], []⟩ =
      (⟨[], [], [], []⟩, some (failRemove "u".toList ++ "boom".toList)) ∧
    (∃ t ∈ errTags (Op.del "u".toList), ∃ m,
      failRemove "u".toList ++ "boom".toList = t ++ m) :=
  ⟨op_failure_aborts_with_tagged_error.1 failingEnv "p".toList []
      [Op.del "v".toList] (Op.del "u".toList) ⟨[], [], [], []⟩ ⟨[], [], [], []⟩
      (failRemove "u".toList ++ "boom".toList) rfl rfl,
   op_failure_aborts_with_tagged_error.2 failingEnv "p".toList ⟨[], [], [], []⟩
      (Op.del "u".toList) (failRemove "u".toList ++ "boom".toList) rfl⟩

/-! ### Identifier bookkeeping: uuids of built trees -/

theorem treeUuids_append :
    ∀ (t1 t2 : List BlockNode), treeUuids (t1 ++ t2) = treeUuids t1 ++ treeUuids t2
  | [], t2 => by simp [treeUuids]
  | .mk c u ch vt :: rest, t2 => by
    simp only [List.cons_append, treeUuids, treeUuids_append rest t2,
      List.append_assoc]

theorem flattenAux_keys :
    ∀ (parentUuid : Str) (order : Nat) (tree : List BlockNode),
      (flattenAux parentUuid order tree).map Prod.fst = treeUuids tree := by
  intro parentUuid order tree
  induction parentUuid, order, tree using flattenAux.induct with
  | case1 p o => simp [flattenAux, treeUuids]
  | case2 p o c u ch vt rest ih1 ih2 =>
    simp only [flattenAux, treeUuids, List.map_cons, List.map_append, ih1, ih2]

theorem treeUuids_serializeList (cas : List (Str × CA)) :
    ∀ ns : List BlockNode, treeUuids (serializeList cas ns) = treeUuids ns
  | [] => by simp [serializeList]
  | .mk c u ch vt :: rest => by
    simp only [serializeList, serializeNode, treeUuids,
      treeUuids_serializeList cas ch, treeUuids_serializeList cas rest]

theorem treeUuids_insertAtLevel (c u : Str) (ch : List BlockNode)
    (vt : Option ViewType) :
    ∀ (T : List BlockNode) (L : Nat),
      List.Perm (treeUuids (insertAtLevel (.mk c u ch vt) T L))
        (u :: (treeUuids ch ++ treeUuids T))
  | T, 0 => by
    rw [insertAtLevel, treeUuids_append]
    simp only [treeUuids, List.append_nil]
    exact List.perm_middle.trans ((List.perm_append_comm).cons u)
  | [], L + 1 => by
    rw [insertAtLevel]
    simp [treeUuids]
  | [.mk c' u' ch' vt'], L + 1 => by
    rw [insertAtLevel]
    have ih := treeUuids_insertAtLevel c u ch vt ch' L
    rw [List.perm_iff_count]
    intro a
    have hc := ih.count_eq a
    simp only [treeUuids, List.append_nil, List.count_append,
      List.count_cons] at hc ⊢
    omega
  | x :: y :: rest, L + 1 => by
    rw [insertAtLevel]
    have ih := treeUuids_insertAtLevel c u ch vt (y :: rest) (L + 1)
    rcases x with ⟨cx, ux, chx, vtx⟩
    rw [List.perm_iff_count]
    intro a
    have hc := ih.count_eq a
    simp only [treeUuids, List.count_append, List.count_cons] at hc ⊢
    omega

theorem blockIdsOf_cons_block {a : Anno} {l : List Anno} (h : a.type = blockT) :
    blockIdsOf (a :: l) = a.identifier :: blockIdsOf l := by
  unfold blockIdsOf
  rw [List.filter_cons_of_pos (by simp [h]), List.map_cons]

theorem blockIdsOf_cons_nonblock {a : Anno} {l : List Anno}
    (h : a.type ≠ blockT) : blockIdsOf (a :: l) = blockIdsOf l := by
  unfold blockIdsOf
  rw [List.filter_cons_of_neg (by simp [h])]

/-- The uuids of the tree built by folding annotations are, up to permutation,
the identifiers of the folded `block` annotations plus the starting tree's. -/
theorem buildFold_treeUuids (content : Str) :
    ∀ (l : List Anno) (st : BuildState),
      List.Perm (treeUuids ((l.foldl (buildStep content) st).tree))
        (treeUuids st.tree ++ blockIdsOf l) := by
  intro l
  induction l with
  | nil =>
    intro st
    simp [blockIdsOf]
  | cons a l ih =>
    intro st
    simp only [List.foldl_cons]
    by_cases hblock : a.type = blockT
    · have h1 := ih (buildStep content st a)
      rw [buildStep_block hblock] at h1 ⊢
      have h2 := treeUuids_insertAtLevel (sliceJoin content a.start a.stop)
        a.identifier [] (some .bullet) st.tree a.level
      rw [blockIdsOf_cons_block hblock, List.perm_iff_count]
      intro x
      have hc1 := h1.count_eq x
      have hc2 := h2.count_eq x
      simp only [treeUuids, List.count_append, List.count_cons,
        List.count_nil, List.nil_append] at hc1 hc2 ⊢
      omega
    · have h1 := ih (buildStep content st a)
      have htree : (buildStep content st a).tree = st.tree := by
        by_cases hmeta : a.type = metadataT
        · rw [buildStep_metadata hblock hmeta]
        · rw [buildStep_other hblock hmeta]
      rw [htree] at h1
      rw [blockIdsOf_cons_nonblock hblock]
      exact h1

/-! ### C8: the delete classification and its effects -/

theorem keys_upsert {α : Type} (k : Str) (v : α) (l : List (Str × α))
    (j : Str) :
    j ∈ (upsert k v l).map Prod.fst ↔ j = k ∨ j ∈ l.map Prod.fst := by
  induction l with
  | nil => simp [upsert]
  | cons p rest ih =>
    rcases p with ⟨k0, v0⟩
    rw [upsert]
    split
    · rename_i h
      subst h
      simp only [List.map_cons, List.mem_cons]
      tauto
    · simp only [List.map_cons, List.mem_cons, ih]
      tauto

theorem keys_objFromEntries_aux {α : Type} (l : List (Str × α)) :
    ∀ (acc : List (Str × α)) (k : Str),
      k ∈ (l.foldl (fun acc p => upsert p.1 p.2 acc) acc).map Prod.fst ↔
        k ∈ acc.map Prod.fst ∨ k ∈ l.map Prod.fst := by
  induction l with
  | nil =>
    intro acc k
    simp only [List.foldl_nil, List.map_nil, List.not_mem_nil, or_false]
  | cons p rest ih =>
    intro acc k
    simp only [List.foldl_cons, ih, keys_upsert, List.map_cons, List.mem_cons]
    tauto

theorem keys_objFromEntries {α : Type} (l : List (Str × α)) (k : Str) :
    k ∈ (objFromEntries l).map Prod.fst ↔ k ∈ l.map Prod.fst := by
  unfold objFromEntries
  rw [keys_objFromEntries_aux]
  simp only [List.map_nil, List.not_mem_nil, false_or]

theorem mem_objFromEntries_aux {α : Type} {p : Str × α} (l : List (Str × α)) :
    ∀ {acc : List (Str × α)},
      p ∈ l.foldl (fun acc q => upsert q.1 q.2 acc) acc → p ∈ acc ∨ p ∈ l := by
  induction l with
  | nil => intro acc h; exact Or.inl h
  | cons q rest ih =>
    intro acc h
    rcases ih h with h1 | h1
    · rcases mem_upsert h1 with h2 | h2
      · exact Or.inr (h2 ▸ List.mem_cons_self _ _)
      · exact Or.inl h2
    · exact Or.inr (List.mem_cons_of_mem _ h1)

theorem mem_objFromEntries {α : Type} {p : Str × α} {l : List (Str × α)}
    (h : p ∈ objFromEntries l) : p ∈ l := by
  rcases mem_objFromEntries_aux l h with h1 | h1
  · simp at h1
  · exact h1

theorem map_fst_filter_keys {α : Type} (l : List (Str × α)) :
    ((l.filter fun p => !p.1.isEmpty).map Prod.fst) =
      (l.map Prod.fst).filter fun k => !k.isEmpty := by
  induction l with
  | nil => rfl
  | cons p rest ih =>
    by_cases h : p.1.isEmpty
    · simp [List.filter_cons, h, ih]
    · simp [List.filter_cons, h, ih]

theorem mem_keys_expMapOf (pageId : Str) (state : InitialSchema) (k : Str) :
    k ∈ (expMapOf pageId state).map Prod.fst ↔
      k ≠ [] ∧ k ∈ treeUuids (builtOf state).tree := by
  unfold expMapOf
  rw [keys_objFromEntries, map_fst_filter_keys, List.mem_filter]
  unfold flattenTree
  rw [flattenAux_keys]
  unfold desiredTreeOf
  rw [treeUuids_serializeList]
  simp only [Bool.not_eq_eq_eq_not, Bool.not_true, List.isEmpty_eq_false]
  exact and_comm

theorem mem_treeUuids_builtOf (state : InitialSchema) (k : Str) :
    k ∈ treeUuids (builtOf state).tree ↔ k ∈ blockIdsOf state.annos := by
  unfold builtOf
  have h := buildFold_treeUuids state.content state.annos ⟨[], [], none⟩
  rw [h.mem_iff]
  simp [treeUuids]

theorem eS2L_val {g2lM : List (Str × Str)} {pageId : Str}
    {state : InitialSchema} {g v : Str}
    (h : (g, v) ∈ eS2LOf g2lM pageId state) : v = lookupD g2lM g := by
  have h1 := mem_objFromEntries h
  simp only [List.mem_map] at h1
  obtain ⟨p, _, hp⟩ := h1
  injection hp with h2 h3
  subst h2
  exact h3.symm

theorem mem_keys_eS2L {g2lM : List (Str × Str)} {pageId : Str}
    {state : InitialSchema} {k : Str} :
    k ∈ (eS2LOf g2lM pageId state).map Prod.fst ↔
      k ∈ (expMapOf pageId state).map Prod.fst := by
  unfold eS2LOf
  rw [keys_objFromEntries, List.map_map]
  rw [show (Prod.fst ∘ fun p : Str × FlatEntry => (p.1, lookupD g2lM p.1)) =
    Prod.fst from rfl]

theorem mem_expectedUuidsOf {g2lM : List (Str × Str)} {pageId : Str}
    {state : InitialSchema} {u : Str} :
    u ∈ expectedUuidsOf g2lM pageId state ↔
      u ≠ [] ∧ ∃ g, (g, u) ∈ eS2LOf g2lM pageId state := by
  unfold expectedUuidsOf
  rw [List.mem_filter]
  constructor
  · rintro ⟨hm, hcond⟩
    rw [List.mem_map] at hm
    obtain ⟨⟨g, v⟩, hgv, rfl⟩ := hm
    exact ⟨by simpa [List.isEmpty_iff] using hcond, g, hgv⟩
  · rintro ⟨hne, g, hgv⟩
    exact ⟨List.mem_map.mpr ⟨(g, u), hgv, rfl⟩, by simpa [List.isEmpty_iff]⟩

theorem mem_toDeleteOf {g2lM : List (Str × Str)} {pageId : Str}
    {state : InitialSchema} {actualNodes : List BlockNode} {u : Str} :
    u ∈ toDeleteOf g2lM pageId state actualNodes ↔
      u ∈ (actMapOf pageId actualNodes).map Prod.fst ∧
        u ∉ expectedUuidsOf g2lM pageId state := by
  unfold toDeleteOf
  rw [List.mem_filter]
  simp only [Bool.not_eq_true', decide_eq_false_iff_not]

/-- C8: `toDelete` is exactly the set of actual local block ids whose
corresponding global id is absent from the desired document's block
identifiers (given a coherent identifier store); each such id gets a delete op
in the emitted op list; and executing a delete removes the block through the
host adapter and drops the id-mapping entry in both directions. -/
theorem toDelete_classification_and_effect
    (g2lM l2gM : List (Str × Str)) (pageId : Str) (state : InitialSchema)
    (actualNodes : List BlockNode)
    (hact : ∀ u ∈ (actMapOf pageId actualNodes).map Prod.fst,
      u ≠ [] ∧ lookupD l2gM u ≠ [] ∧ lookupD g2lM (lookupD l2gM u) = u)
    (hdes : ∀ g ∈ blockIdsOf state.annos, g ≠ [] →
      lookupD g2lM g = [] ∨ lookupD l2gM (lookupD g2lM g) = g) :
    (∀ u, u ∈ toDeleteOf g2lM pageId state actualNodes ↔
      (u ∈ (actMapOf pageId actualNodes).map Prod.fst ∧
        lookupD l2gM u ∉ blockIdsOf state.annos)) ∧
    (∀ u ∈ toDeleteOf g2lM pageId state actualNodes,
      Op.del u ∈ opsOf g2lM pageId state actualNodes) ∧
    (∀ (env : HostEnv) (st : RunState) (u r : Str),
      env.behavior (.removeBlock u) = .ok r →
      execOp env pageId st (.del u) = .ok
        { st with muts := st.muts ++ [.removeBlock u],
                  l2gM := eraseKey u st.l2gM,
                  g2lM := eraseKey (lookupD st.l2gM u) st.g2lM }) := by
  refine ⟨?_, ?_, ?_⟩
  · intro u
    rw [mem_toDeleteOf]
    constructor
    · rintro ⟨hk, hnot⟩
      refine ⟨hk, fun hmem => hnot ?_⟩
      obtain ⟨hune, hl2g, hg2l⟩ := hact u hk
      rw [mem_expectedUuidsOf]
      refine ⟨hune, lookupD l2gM u, ?_⟩
      have hkey : (lookupD l2gM u) ∈ (expMapOf pageId state).map Prod.fst := by
        rw [mem_keys_expMapOf]
        exact ⟨hl2g, (mem_treeUuids_builtOf state _).mpr hmem⟩
      have hkey2 : (lookupD l2gM u) ∈ (eS2LOf g2lM pageId state).map Prod.fst := by
        rw [mem_keys_eS2L]
        exact hkey
      rw [List.mem_map] at hkey2
      obtain ⟨⟨g, v⟩, hgv, hfst⟩ := hkey2
      simp only at hfst
      subst hfst
      have hv := eS2L_val hgv
      rw [hg2l] at hv
      rwa [hv] at hgv
    · rintro ⟨hk, hnot⟩
      refine ⟨hk, fun hexp => hnot ?_⟩
      rw [mem_expectedUuidsOf] at hexp
      obtain ⟨hune, g, hgv⟩ := hexp
      have hval := eS2L_val hgv
      have hgkey : g ∈ (eS2LOf g2lM pageId state).map Prod.fst :=
        List.mem_map.mpr ⟨(g, u), hgv, rfl⟩
      rw [mem_keys_eS2L, mem_keys_expMapOf] at hgkey
      obtain ⟨hgne, hgtree⟩ := hgkey
      have hgdes : g ∈ blockIdsOf state.annos :=
        (mem_treeUuids_builtOf state g).mp hgtree
      rcases hdes g hgdes hgne with h0 | h1
      · rw [← hval] at h0
        exact absurd h0 hune
      · have hlg : lookupD l2gM u = g := by rw [hval]; exact h1
        exact hlg ▸ hgdes
  · intro u hu
    unfold opsOf
    simp only [List.append_assoc, List.mem_append, List.mem_cons,
      List.mem_map]
    exact Or.inr (Or.inl ⟨u, hu, rfl⟩)
  · intro env st u r hb
    simp only [execOp, doCall, hb]

unseal stripProps flattenAux in
/-- Witness for `toDelete_classification_and_effect`: its hypotheses hold at a
concrete populated mapping, and the classification iff follows there. -/
theorem toDelete_witness :
    (∀ u ∈ (actMapOf "p".toList actC8).map Prod.fst,
      u ≠ [] ∧ lookupD l2gC8 u ≠ [] ∧ lookupD g2lC8 (lookupD l2gC8 u) = u) ∧
    (∀ g ∈ blockIdsOf stateC8.annos, g ≠ [] →
      lookupD g2lC8 g = [] ∨ lookupD l2gC8 (lookupD g2lC8 g) = g) ∧
    (∀ u, u ∈ toDeleteOf g2lC8 "p".toList stateC8 actC8 ↔
      (u ∈ (actMapOf "p".toList actC8).map Prod.fst ∧
        lookupD l2gC8 u ∉ blockIdsOf stateC8.annos)) :=
  ⟨by decide, by decide,
   (toDelete_classification_and_effect g2lC8 l2gC8 "p".toList stateC8 actC8
     (by decide) (by decide)).1⟩

/-! ### C3: op ordering and sequential execution -/

/-- `flattenTree` emits every node after its parent: an entry's `parentUuid` is
the flatten root or the key of an earlier entry. -/
theorem flattenAux_parent_first :
    ∀ (p : Str) (o : Nat) (tree : List BlockNode)
      (l1 : List (Str × FlatEntry)) (u : Str) (e : FlatEntry)
      (l2 : List (Str × FlatEntry)),
      flattenAux p o tree = l1 ++ (u, e) :: l2 →
      e.parentUuid = p ∨ e.parentUuid ∈ l1.map Prod.fst := by
  intro p o tree
  induction p, o, tree using flattenAux.induct with
  | case1 p o =>
    intro l1 u e l2 h
    rw [flattenAux] at h
    exact absurd h.symm (by simp)
  | case2 p o c u0 ch vt rest ih1 ih2 =>
    intro l1 u e l2 h
    rw [flattenAux] at h
    rcases l1 with _ | ⟨p1, l1'⟩
    · rw [List.nil_append] at h
      injection h with h1 h2
      injection h1 with hu he
      subst he
      exact Or.inl rfl
    · rw [List.cons_append] at h
      injection h with h1 h2
      rw [List.append_eq_append_iff] at h2
      rcases h2 with ⟨a2, hc1, hc2⟩ | ⟨c2, hc1, hc2⟩
      · rcases ih2 a2 u e l2 hc2 with h | h
        · exact Or.inl h
        · right
          subst hc1
          simp only [List.map_cons, List.map_append, List.mem_cons,
            List.mem_append]
          exact Or.inr (Or.inr h)
      · rcases c2 with _ | ⟨x, c2'⟩
        · rw [List.nil_append] at hc2
          rcases ih2 [] u e l2 hc2.symm with h | h
          · exact Or.inl h
          · simp at h
        · rw [List.cons_append] at hc2
          injection hc2 with hx hrest
          subst hx
          rcases ih1 l1' u e c2' hc1 with h | h
          · right
            simp only [← h1, List.map_cons, List.mem_cons]
            exact Or.inl h
          · right
            simp only [List.map_cons, List.mem_cons]
            exact Or.inr h

/-- Parent-before-child survives filtering, provided keys are unique: a kept
entry's parent is allowed, appears among earlier kept keys, or was filtered
out entirely. -/
theorem pf_filter_gen (L : List (Str × FlatEntry)) :
    ∀ (A : Str → Prop) (q : Str × FlatEntry → Bool),
      ((L.map Prod.fst).Nodup) →
      (∀ l1 u e l2, L = l1 ++ (u, e) :: l2 →
        A e.parentUuid ∨ e.parentUuid ∈ l1.map Prod.fst) →
      ∀ m1 u e m2, L.filter q = m1 ++ (u, e) :: m2 →
        A e.parentUuid ∨ e.parentUuid ∈ m1.map Prod.fst ∨
          e.parentUuid ∉ (L.filter q).map Prod.fst := by
  induction L with
  | nil =>
    intro A q _ _ m1 u e m2 h
    rw [List.filter_nil] at h
    exact absurd h.symm (by simp)
  | cons p L' ih =>
    intro A q hnd hpf m1 u e m2 hdec
    rcases p with ⟨u0, e0⟩
    simp only [List.map_cons, List.nodup_cons] at hnd
    obtain ⟨hu0, hnd'⟩ := hnd
    have hpf' : ∀ l1 u1 e1 l2, L' = l1 ++ (u1, e1) :: l2 →
        (A e1.parentUuid ∨ e1.parentUuid = u0) ∨
          e1.parentUuid ∈ l1.map Prod.fst := by
      intro l1 u1 e1 l2 hl
      rcases hpf ((u0, e0) :: l1) u1 e1 l2 (by rw [hl, List.cons_append]) with
        h | h
      · exact Or.inl (Or.inl h)
      · simp only [List.map_cons, List.mem_cons] at h
        rcases h with h | h
        · exact Or.inl (Or.inr h)
        · exact Or.inr h
    have hsub : (L'.filter q).map Prod.fst ⊆ L'.map Prod.fst := by
      intro x hx
      rw [List.mem_map] at hx ⊢
      obtain ⟨y, hy, rfl⟩ := hx
      exact ⟨y, List.mem_of_mem_filter hy, rfl⟩
    by_cases hq : q (u0, e0)
    · rw [List.filter_cons_of_pos hq] at hdec
      rcases m1 with _ | ⟨p1, m1'⟩
      · rw [List.nil_append] at hdec
        injection hdec with h1 h2
        injection h1 with hu he
        subst he
        rcases hpf [] u0 e0 L' rfl with h | h
        · exact Or.inl h
        · simp at h
      · rw [List.cons_append] at hdec
        injection hdec with h1 h2
        rcases ih (fun k => A k ∨ k = u0) q hnd' hpf' m1' u e m2 h2 with
          h | h | h
        · rcases h with h | h
          · exact Or.inl h
          · right; left
            simp only [← h1, List.map_cons, List.mem_cons]
            exact Or.inl h
        · right; left
          simp only [List.map_cons, List.mem_cons]
          exact Or.inr h
        · by_cases he0 : e.parentUuid = u0
          · right; left
            simp only [← h1, List.map_cons, List.mem_cons]
            exact Or.inl he0
          · right; right
            rw [List.filter_cons_of_pos hq]
            simp only [List.map_cons, List.mem_cons]
            rintro (h' | h')
            · exact he0 h'
            · exact h h'
    · rw [List.filter_cons_of_neg hq] at hdec
      rcases ih (fun k => A k ∨ k = u0) q hnd' hpf' m1 u e m2 hdec with
        h | h | h
      · rcases h with h | h
        · exact Or.inl h
        · right; right
          rw [List.filter_cons_of_neg hq, h]
          intro hc
          exact hu0 (hsub hc)
      · exact Or.inr (Or.inl h)
      · right; right
        rw [List.filter_cons_of_neg hq]
        exact h

theorem upsert_eq_append {α : Type} {k : Str} (v : α) (l : List (Str × α))
    (h : k ∉ l.map Prod.fst) : upsert k v l = l ++ [(k, v)] := by
  induction l with
  | nil => rfl
  | cons p rest ih =>
    rcases p with ⟨k0, v0⟩
    simp only [List.map_cons, List.mem_cons, not_or] at h
    obtain ⟨hne, hrest⟩ := h
    rw [upsert, if_neg (fun he => hne he.symm), ih hrest, List.cons_append]

theorem objFromEntries_aux_id {α : Type} (l : List (Str × α)) :
    ∀ acc : List (Str × α), (((acc ++ l).map Prod.fst).Nodup) →
      l.foldl (fun acc p => upsert p.1 p.2 acc) acc = acc ++ l := by
  induction l with
  | nil => intro acc _; simp
  | cons p rest ih =>
    intro acc h
    rcases p with ⟨k, v⟩
    simp only [List.foldl_cons]
    have hk : k ∉ acc.map Prod.fst := by
      simp only [List.map_append, List.map_cons, List.nodup_append,
        List.nodup_cons] at h
      intro hc
      exact h.2.2 hc (List.mem_cons_self _ _)
    rw [upsert_eq_append v acc hk, ih (acc ++ [(k, v)])
      (by rw [List.append_assoc, List.singleton_append]; exact h),
      List.append_assoc, List.singleton_append]

theorem objFromEntries_id {α : Type} {l : List (Str × α)}
    (h : (l.map Prod.fst).Nodup) : objFromEntries l = l := by
  unfold objFromEntries
  have := objFromEntries_aux_id l [] (by simpa using h)
  simpa using this

theorem lookup_eq_of_mem_of_nodup {α : Type} (l : List (Str × α)) :
    ((l.map Prod.fst).Nodup) →
      ∀ {k : Str} {v : α}, (k, v) ∈ l → l.lookup k = some v := by
  induction l with
  | nil => intro _ k v h; simp at h
  | cons p rest ih =>
    intro hnd k v h
    rcases p with ⟨k0, v0⟩
    simp only [List.map_cons, List.nodup_cons] at hnd
    obtain ⟨hk0, hnd2⟩ := hnd
    rcases List.mem_cons.mp h with heq | hmem
    · injection heq with h1 h2
      subst h1; subst h2
      simp [List.lookup]
    · have hk : k ≠ k0 := by
        rintro rfl
        exact hk0 (List.mem_map.mpr ⟨(k, v), hmem, rfl⟩)
      have hbeq : (k == k0) = false := beq_eq_false_iff_ne.mpr hk
      rw [List.lookup, hbeq]
      exact ih hnd2 hmem

/-- Parent-before-child for the creates: a to-be-created block's parent is the
page itself, the key of an earlier create, or not a created block at all. -/
theorem toCreate_parent_first (g2lM : List (Str × Str)) (pageId : Str)
    (state : InitialSchema) (actualNodes : List BlockNode)
    (hnd : (blockIdsOf state.annos).Nodup) :
    ∀ (pre : List (Str × Str)) (k v : Str) (post : List (Str × Str)),
      toCreateOf g2lM pageId state actualNodes = pre ++ (k, v) :: post →
      (lookupEntry (expMapOf pageId state) k).parentUuid = pageId ∨
      (lookupEntry (expMapOf pageId state) k).parentUuid ∈ pre.map Prod.fst ∨
      (lookupEntry (expMapOf pageId state) k).parentUuid ∉
        (toCreateOf g2lM pageId state actualNodes).map Prod.fst := by
  intro pre k v post hdec
  have hperm : List.Perm (treeUuids (builtOf state).tree)
      (blockIdsOf state.annos) := by
    have h := buildFold_treeUuids state.content state.annos ⟨[], [], none⟩
    unfold builtOf
    simpa [treeUuids] using h
  have hkeysdes : treeUuids (desiredTreeOf state) =
      treeUuids (builtOf state).tree := by
    unfold desiredTreeOf
    rw [treeUuids_serializeList]
  have hnodupFL :
      (((flattenAux pageId 0 (desiredTreeOf state))).map Prod.fst).Nodup := by
    rw [flattenAux_keys, hkeysdes]
    exact (hperm.nodup_iff).mpr hnd
  have hnodupExpKeys :
      (((flattenAux pageId 0 (desiredTreeOf state)).filter
        (fun p => !p.1.isEmpty)).map Prod.fst).Nodup := by
    rw [map_fst_filter_keys]
    exact hnodupFL.filter _
  have hexp : expMapOf pageId state =
      (flattenAux pageId 0 (desiredTreeOf state)).filter
        (fun p => !p.1.isEmpty) := by
    unfold expMapOf flattenTree
    exact objFromEntries_id hnodupExpKeys
  have hfstmap : ∀ (l : List (Str × FlatEntry)),
      ((l.map fun p => (p.1, lookupD g2lM p.1)).map Prod.fst) =
        l.map Prod.fst := by
    intro l
    rw [List.map_map]
    rfl
  have hes : eS2LOf g2lM pageId state =
      (expMapOf pageId state).map fun p => (p.1, lookupD g2lM p.1) := by
    unfold eS2LOf
    apply objFromEntries_id
    rw [hfstmap, hexp]
    exact hnodupExpKeys
  unfold toCreateOf at hdec
  rw [hes, List.filter_map, hexp, List.filter_filter] at hdec
  rw [List.map_eq_append_iff] at hdec
  obtain ⟨l1, l2, hM, hpre, hcons⟩ := hdec
  rw [List.map_eq_cons_iff] at hcons
  obtain ⟨⟨k1, e1⟩, l2t, rfl, hfa, hpost⟩ := hcons
  have hk1 : k1 = k := by
    injection hfa
  subst hk1
  have hmemM : (k1, e1) ∈ l1 ++ (k1, e1) :: l2t :=
    List.mem_append.mpr (Or.inr (List.mem_cons_self _ _))
  rw [← hM] at hmemM
  have hmemExp : (k1, e1) ∈ expMapOf pageId state := by
    rw [hexp]
    rw [List.mem_filter] at hmemM ⊢
    refine ⟨hmemM.1, ?_⟩
    have := hmemM.2
    rw [Bool.and_eq_true] at this
    exact this.2
  have hlook : lookupEntry (expMapOf pageId state) k1 = e1 := by
    unfold lookupEntry
    rw [lookup_eq_of_mem_of_nodup (expMapOf pageId state)
      (by rw [hexp]; exact hnodupExpKeys) hmemExp]
    rfl
  rw [hlook]
  have hpf := flattenAux_parent_first pageId 0 (desiredTreeOf state)
  rcases pf_filter_gen (flattenAux pageId 0 (desiredTreeOf state))
      (fun s => s = pageId) _ hnodupFL
      (fun a1 b1 c1 d1 h1 => hpf a1 b1 c1 d1 h1) l1 k1 e1 l2t hM with
    h | h | h
  · exact Or.inl h
  · right; left
    rw [← hpre, hfstmap]
    exact h
  · right; right
    unfold toCreateOf
    rw [hes, List.filter_map, hexp, List.filter_filter, hfstmap]
    exact h

theorem pairwise_of_forall_rel {α : Type} {R : α → α → Prop}
    (h : ∀ a b, R a b) : ∀ l : List α, List.Pairwise R l := by
  intro l
  induction l with
  | nil => exact List.Pairwise.nil
  | cons a l ih => exact List.Pairwise.cons (fun b _ => h a b) ih

theorem opRank_metaOpOf (state : InitialSchema) :
    opRank (metaOpOf state) = 0 := by
  unfold metaOpOf
  split <;> rfl

/-- C3: the reconciler's op list is in strict phase order — the metadata op
first, then all deletes, then all creates (each created block's referenced
parent is the page itself, the key of an earlier create, or not a created
block at all), then all updates/moves — and the promise chain executes
strictly sequentially: the ops after a prefix run in the state the prefix
reached, and a rejection stops the remainder. -/
theorem opsOf_ordered_and_sequential :
    (∀ (g2lM : List (Str × Str)) (pageId : Str) (state : InitialSchema)
        (actualNodes : List BlockNode),
      (opsOf g2lM pageId state actualNodes).head? = some (metaOpOf state) ∧
      opRank (metaOpOf state) = 0 ∧
      List.Pairwise (fun o1 o2 => opRank o1 ≤ opRank o2)
        (opsOf g2lM pageId state actualNodes)) ∧
    (∀ (g2lM : List (Str × Str)) (pageId : Str) (state : InitialSchema)
        (actualNodes : List BlockNode),
      (blockIdsOf state.annos).Nodup →
      ∀ (pre : List (Str × Str)) (k v : Str) (post : List (Str × Str)),
        toCreateOf g2lM pageId state actualNodes = pre ++ (k, v) :: post →
        (lookupEntry (expMapOf pageId state) k).parentUuid = pageId ∨
        (lookupEntry (expMapOf pageId state) k).parentUuid ∈ pre.map Prod.fst ∨
        (lookupEntry (expMapOf pageId state) k).parentUuid ∉
          (toCreateOf g2lM pageId state actualNodes).map Prod.fst) ∧
    (∀ (env : HostEnv) (pageId : Str) (l1 l2 : List Op) (st : RunState),
      runOps env pageId (l1 ++ l2) st =
        match runOps env pageId l1 st with
        | (st1, none) => runOps env pageId l2 st1
        | (st1, some e) => (st1, some e)) := by
  refine ⟨?_, ?_, ?_⟩
  · intro g2lM pageId state actualNodes
    refine ⟨by simp [opsOf], opRank_metaOpOf state, ?_⟩
    unfold opsOf
    simp only [List.append_assoc, List.singleton_append, List.cons_append,
      List.nil_append]
    rw [List.pairwise_cons]
    constructor
    · intro b _
      rw [opRank_metaOpOf]
      exact Nat.zero_le _
    · rw [List.pairwise_append]
      refine ⟨?_, ?_, ?_⟩
      · rw [List.pairwise_map]
        exact pairwise_of_forall_rel (fun a b => by simp [opRank]) _
      · rw [List.pairwise_append]
        refine ⟨?_, ?_, ?_⟩
        · rw [List.pairwise_map]
          exact pairwise_of_forall_rel (fun a b => by simp [opRank]) _
        · rw [List.pairwise_map]
          exact pairwise_of_forall_rel (fun a b => by simp [opRank]) _
        · intro a ha b hb
          rw [List.mem_map] at ha hb
          obtain ⟨x, -, rfl⟩ := ha
          obtain ⟨y, -, rfl⟩ := hb
          simp [opRank]
      · intro a ha b hb
        rw [List.mem_map] at ha
        obtain ⟨x, -, rfl⟩ := ha
        rw [List.mem_append] at hb
        rcases hb with hb | hb <;>
          · rw [List.mem_map] at hb
            obtain ⟨y, -, rfl⟩ := hb
            simp [opRank]
  · intro g2lM pageId state actualNodes hnd
    exact toCreate_parent_first g2lM pageId state actualNodes hnd
  · intro env pageId l1 l2 st
    exact runOps_append_eq env pageId l1 l2 st

unseal insertAtLevel annotate flattenAux in
/-- Witness for `opsOf_ordered_and_sequential`: the parent-first conjunct
applied at a concrete one-create document. -/
theorem opsOf_ordered_witness :
    ((blockIdsOf stateC3.annos).Nodup ∧
      toCreateOf [] "p".toList stateC3 [] =
        [] ++ ("h".toList, ([] : Str)) :: []) ∧
    ((lookupEntry (expMapOf "p".toList stateC3) "h".toList).parentUuid =
        "p".toList ∨
      (lookupEntry (expMapOf "p".toList stateC3) "h".toList).parentUuid ∈
        ([] : List (Str × Str)).map Prod.fst ∨
      (lookupEntry (expMapOf "p".toList stateC3) "h".toList).parentUuid ∉
        (toCreateOf [] "p".toList stateC3 []).map Prod.fst) :=
  ⟨⟨by decide, by decide⟩,
   opsOf_ordered_and_sequential.2.1 [] "p".toList stateC3 [] (by decide)
     [] "h".toList [] [] (by decide)⟩

theorem insertAtLevel_eq_graft (cur : BlockNode) :
    ∀ (T : List BlockNode) (L : Nat), insertAtLevel cur T L = graft [cur] T L := by
  intro T L
  induction T, L using insertAtLevel.induct cur with
  | case1 nodes => rw [insertAtLevel, graft]
  | case2 l => rw [insertAtLevel, graft]
  | case3 c u ch vt l ih => rw [insertAtLevel, graft, ih]
  | case4 x y rest l ih => rw [insertAtLevel, graft, ih]

theorem graft_nil_ys : ∀ (T : List BlockNode) (L : Nat), graft [] T L = T := by
  intro T L
  induction T, L using spineOK.induct with
  | case1 T => rw [graft, List.append_nil]
  | case2 l => rw [graft]
  | case3 c u ch vt l ih =>
    rw [graft, ih]
  | case4 x y rest l ih => rw [graft, ih]

theorem graft_pos_ne_nil (ys : List BlockNode) :
    ∀ (T : List BlockNode) (l : Nat), T ≠ [] → graft ys T (l + 1) ≠ [] := by
  intro T l hT
  match T with
  | [] => exact absurd rfl hT
  | [.mk c u ch vt] =>
    rw [graft]
    exact List.cons_ne_nil _ _
  | x :: y :: rest =>
    rw [graft]
    exact List.cons_ne_nil _ _

theorem graft_cons_cons (ys : List BlockNode) (x : BlockNode) (l : Nat)
    {w : List BlockNode} (h : w ≠ []) :
    graft ys (x :: w) (l + 1) = x :: graft ys w (l + 1) := by
  match w with
  | [] => exact absurd rfl h
  | y :: rest => rw [graft]

theorem spineOK_cons_cons (x : BlockNode) (l : Nat) {w : List BlockNode}
    (h : w ≠ []) : spineOK (x :: w) (l + 1) = spineOK w (l + 1) := by
  match w with
  | [] => exact absurd rfl h
  | y :: rest => rw [spineOK]

theorem graft_append_graft (ys zs : List BlockNode) :
    ∀ (T : List BlockNode) (L : Nat), spineOK T L = true →
      graft (ys ++ zs) T L = graft zs (graft ys T L) L := by
  intro T L
  induction T, L using spineOK.induct with
  | case1 T =>
    intro _
    rw [graft, graft, graft, List.append_assoc]
  | case2 l =>
    intro h
    rw [spineOK] at h
    exact absurd h (by simp)
  | case3 c u ch vt l ih =>
    intro h
    rw [spineOK] at h
    rw [graft, graft, graft, ih h]
  | case4 x y rest l ih =>
    intro h
    rw [spineOK] at h
    rw [graft, graft,
      graft_cons_cons zs x l (graft_pos_ne_nil ys (y :: rest) l (by simp)),
      ih h]

theorem spineOK_graft (ys : List BlockNode) :
    ∀ (T : List BlockNode) (L : Nat), spineOK T L = true →
      spineOK (graft ys T L) L = true := by
  intro T L
  induction T, L using spineOK.induct with
  | case1 T => intro _; rw [spineOK]
  | case2 l =>
    intro h
    rw [spineOK] at h
    exact absurd h (by simp)
  | case3 c u ch vt l ih =>
    intro h
    rw [spineOK] at h
    rw [graft, spineOK]
    exact ih h
  | case4 x y rest l ih =>
    intro h
    rw [spineOK] at h
    rw [graft,
      spineOK_cons_cons x l (graft_pos_ne_nil ys (y :: rest) l (by simp))]
    exact ih h

theorem spineOK_one : ∀ {w : List BlockNode}, w ≠ [] → spineOK w 1 = true := by
  intro w
  induction w with
  | nil => intro h; exact absurd rfl h
  | cons x rest ih =>
    intro _
    match rest, x with
    | [], .mk c u ch vt =>
      rw [spineOK]
      rw [spineOK]
    | y :: rest', x =>
      rw [spineOK_cons_cons x 0 (by simp)]
      exact ih (by simp)

theorem spineOK_graft_succ {ys : List BlockNode} (hys : ys ≠ []) :
    ∀ (T : List BlockNode) (L : Nat), spineOK T L = true →
      spineOK (graft ys T L) (L + 1) = true := by
  intro T L
  induction T, L using spineOK.induct with
  | case1 T =>
    intro _
    rw [graft]
    exact spineOK_one (by simp [hys])
  | case2 l =>
    intro h
    rw [spineOK] at h
    exact absurd h (by simp)
  | case3 c u ch vt l ih =>
    intro h
    rw [spineOK] at h
    rw [graft, spineOK]
    exact ih h
  | case4 x y rest l ih =>
    intro h
    rw [spineOK] at h
    rw [graft,
      spineOK_cons_cons x (l + 1) (graft_pos_ne_nil ys (y :: rest) l (by simp))]
    exact ih h

theorem graft_one_snoc (zs : List BlockNode) (c u : Str) (ch : List BlockNode)
    (vt : Option ViewType) :
    ∀ w : List BlockNode,
      graft zs (w ++ [.mk c u ch vt]) 1 = w ++ [.mk c u (ch ++ zs) vt] := by
  intro w
  induction w with
  | nil =>
    rw [List.nil_append, graft, graft, List.nil_append]
  | cons x w' ih =>
    rw [List.cons_append, graft_cons_cons zs x 0 (by simp), ih,
      List.cons_append]

theorem graft_nest (zs : List BlockNode) (c u : Str) (ch : List BlockNode)
    (vt : Option ViewType) :
    ∀ (T : List BlockNode) (L : Nat), spineOK T L = true →
      graft zs (graft [.mk c u ch vt] T L) (L + 1) =
        graft [.mk c u (ch ++ zs) vt] T L := by
  intro T L
  induction T, L using spineOK.induct with
  | case1 T =>
    intro _
    rw [graft, graft, graft_one_snoc]
  | case2 l =>
    intro h
    rw [spineOK] at h
    exact absurd h (by simp)
  | case3 c' u' ch' vt' l ih =>
    intro h
    rw [spineOK] at h
    rw [graft, graft, graft, ih h]
  | case4 x y rest l ih =>
    intro h
    rw [spineOK] at h
    rw [graft, graft,
      graft_cons_cons zs x (l + 1)
        (graft_pos_ne_nil [.mk c u ch vt] (y :: rest) l (by simp)),
      ih h]

theorem toAtJson_content :
    ∀ (ns : List BlockNode) (L i : Nat) (vt : ViewType),
      (toAtJson parse l2g fresh ns L i vt).content = docContent parse ns := by
  intro ns L i vt
  induction ns, L, i, vt using toAtJson.induct parse l2g fresh with
  | case1 level idx vt => rw [toAtJson, docContent]
  | case2 content uuid children nvt rest level idx vt parsed e childR ihc ihc2
      ihr =>
    have he : e = idx + (parse (preContent content uuid)).content.length := rfl
    have hcr : childR = toAtJson parse l2g fresh children (level + 1) e
        (nvt.getD vt) := rfl
    rw [he] at ihc ihr hcr
    rw [hcr] at ihr
    rw [ihc] at ihr
    rw [toAtJson, docContent]
    simp only []
    rw [ihc, ihr]

theorem foldl_tree_of_nonblock (content : Str) :
    ∀ (l : List Anno) (st : BuildState), (∀ a ∈ l, a.type ≠ blockT) →
      (l.foldl (buildStep content) st).tree = st.tree := by
  intro l
  induction l with
  | nil => intro st _; rfl
  | cons a l ih =>
    intro st h
    rw [List.foldl_cons]
    rw [ih _ fun b hb => h b (List.mem_cons_of_mem _ hb)]
    by_cases hm : a.type = metadataT
    · rw [buildStep_metadata (h a (List.mem_cons_self _ _)) hm]
    · rw [buildStep_other (h a (List.mem_cons_self _ _)) hm]

theorem buildFold_tree (content : Str)
    (hwf : ∀ s : Str, ∀ a ∈ (parse s).annos, a.type ≠ blockT) :
    ∀ (ns : List BlockNode) (L i : Nat) (vt : ViewType) (st : BuildState),
      spineOK st.tree L = true →
      ((toAtJson parse l2g fresh ns L i vt).annos.foldl (buildStep content)
          st).tree =
        graft (decodeTree parse l2g fresh content ns i) st.tree L := by
  intro ns L i vt
  induction ns, L, i, vt using toAtJson.induct parse l2g fresh with
  | case1 level idx vt =>
    intro st hsp
    rw [toAtJson, decodeTree]
    simp only [List.foldl_nil]
    rw [graft_nil_ys]
  | case2 content0 uuid children nvt rest level idx vt parsed e childR ihc ihc2
      ihr =>
    clear ihc2
    have he : e = idx + (parse (preContent content0 uuid)).content.length := rfl
    have hcr : childR = toAtJson parse l2g fresh children (level + 1) e
        (nvt.getD vt) := rfl
    rw [he] at ihc ihr hcr
    rw [hcr] at ihr
    rw [toAtJson_content parse l2g fresh children] at ihr
    intro st hsp
    rw [toAtJson, decodeTree]
    simp only []
    rw [toAtJson_content parse l2g fresh children]
    rw [List.foldl_cons, List.foldl_append, List.foldl_append]
    have hb : (buildStep content st
        ({ type := blockT, start := idx,
           stop := idx + (parse (preContent content0 uuid)).content.length,
           identifier := getOrCreateId l2g fresh uuid, level := level,
           viewType := vt } : Anno)).tree =
        graft [.mk (sliceJoin content idx
            (idx + (parse (preContent content0 uuid)).content.length))
          (getOrCreateId l2g fresh uuid) [] (some .bullet)] st.tree level := by
      rw [buildStep_block rfl]
      exact insertAtLevel_eq_graft _ _ _
    have hin : (List.foldl (buildStep content)
        (buildStep content st
          ({ type := blockT, start := idx,
             stop := idx + (parse (preContent content0 uuid)).content.length,
             identifier := getOrCreateId l2g fresh uuid, level := level,
             viewType := vt } : Anno))
        ((parse (preContent content0 uuid)).annos.map fun a =>
          { a with start := a.start + idx, stop := a.stop + idx })).tree =
        graft [.mk (sliceJoin content idx
            (idx + (parse (preContent content0 uuid)).content.length))
          (getOrCreateId l2g fresh uuid) [] (some .bullet)] st.tree level := by
      rw [foldl_tree_of_nonblock content _ _ ?_, hb]
      intro a ha
      rw [List.mem_map] at ha
      obtain ⟨a0, ha0, rfl⟩ := ha
      exact hwf (preContent content0 uuid) a0 ha0
    have hch := ihc (List.foldl (buildStep content)
        (buildStep content st
          ({ type := blockT, start := idx,
             stop := idx + (parse (preContent content0 uuid)).content.length,
             identifier := getOrCreateId l2g fresh uuid, level := level,
             viewType := vt } : Anno))
        ((parse (preContent content0 uuid)).annos.map fun a =>
          { a with start := a.start + idx, stop := a.stop + idx }))
      (by rw [hin]; exact spineOK_graft_succ (by simp) st.tree level hsp)
    rw [hin, graft_nest _ _ _ _ _ _ _ hsp, List.nil_append] at hch
    have hre := ihr (List.foldl (buildStep content)
        (List.foldl (buildStep content)
          (buildStep content st
            ({ type := blockT, start := idx,
               stop := idx + (parse (preContent content0 uuid)).content.length,
               identifier := getOrCreateId l2g fresh uuid, level := level,
               viewType := vt } : Anno))
          ((parse (preContent content0 uuid)).annos.map fun a =>
            { a with start := a.start + idx, stop := a.stop + idx }))
        (toAtJson parse l2g fresh children (level + 1)
          (idx + (parse (preContent content0 uuid)).content.length)
          (nvt.getD vt)).annos)
      (by rw [hch]; exact spineOK_graft _ st.tree level hsp)
    rw [hch, ← graft_append_graft _ _ st.tree level hsp,
      List.singleton_append] at hre
    exact hre

theorem decodeTree_sameShape (content : Str) :
    ∀ (ns : List BlockNode) (i : Nat),
      sameShape (decodeTree parse l2g fresh content ns i) ns = true := by
  intro ns i
  induction ns, i using decodeTree.induct parse l2g fresh content with
  | case1 i => rw [decodeTree, sameShape]
  | case2 c u ch vt rest i e ih1 ih2 =>
    rw [decodeTree]
    rw [sameShape, Bool.and_eq_true]
    exact ⟨ih1, ih2⟩

theorem builtOf_calculateState_tree
    (hwf : ∀ s : Str, ∀ a ∈ (parse s).annos, a.type ≠ blockT)
    (title parentUuid : Str) (nodes : List BlockNode) :
    (builtOf (calculateState parse l2g fresh title parentUuid nodes)).tree =
      decodeTree parse l2g fresh
        (calculateState parse l2g fresh title parentUuid nodes).content
        (nodes.filter isContentBlock) title.length := by
  unfold builtOf calculateState
  simp only []
  rw [List.foldl_cons,
    buildStep_metadata (show metadataT ≠ blockT by decide) rfl,
    buildFold_tree parse l2g fresh _ hwf _ _ _ _ _ (by rw [spineOK])]
  rw [graft, List.nil_append]

set_option maxRecDepth 8192 in
unseal insertAtLevel in
/-- C5: `applyState`'s tree reconstruction inserts each block annotation, in
document order, at the depth its `level` gives (level `0` appends at the root
list, a positive level descends into the last node's children — the closed
form `graft`); folding the block annotations the encoder emits reconstructs
the encoder's input forest shape exactly (`decodeTree` mirrors the source
skeleton node for node), provided the external inline codec emits no `block`
annotations of its own; in particular the flat document with levels `0,1,1,0`
rebuilds one root with two children followed by a second root sibling. -/
theorem level_reconstruction_inverse :
    (∀ (cur : BlockNode) (T : List BlockNode) (L : Nat),
      insertAtLevel cur T L = graft [cur] T L) ∧
    (∀ (parse : Str → InitialSchema) (l2g fresh : Str → Str)
        (title parentUuid : Str) (nodes : List BlockNode),
      (∀ s : Str, ∀ a ∈ (parse s).annos, a.type ≠ blockT) →
      (builtOf (calculateState parse l2g fresh title parentUuid nodes)).tree =
        decodeTree parse l2g fresh
          (calculateState parse l2g fresh title parentUuid nodes).content
          (nodes.filter isContentBlock) title.length ∧
      sameShape
        (builtOf (calculateState parse l2g fresh title parentUuid nodes)).tree
        (nodes.filter isContentBlock) = true) ∧
    (builtOf doc5).tree = tree5 := by
  refine ⟨insertAtLevel_eq_graft, ?_, by decide⟩
  intro parse l2g fresh title parentUuid nodes hwf
  refine ⟨builtOf_calculateState_tree parse l2g fresh hwf title parentUuid
    nodes, ?_⟩
  rw [builtOf_calculateState_tree parse l2g fresh hwf title parentUuid nodes]
  exact decodeTree_sameShape parse l2g fresh _ _ _

/-- Witness for `level_reconstruction_inverse`: its encoder-inverse conjunct
applied at the trivial inline codec and a one-block tree. -/
theorem level_reconstruction_witness :
    (∀ s : Str, ∀ a ∈ ((fun s => (⟨s, []⟩ : InitialSchema)) s).annos,
      a.type ≠ blockT) ∧
    ((builtOf (calculateState (fun s => ⟨s, []⟩) (fun _ => "g".toList)
        (fun _ => "h".toList) "t".toList "p".toList
        [BlockNode.mk "a".toList "u".toList [] none])).tree =
      decodeTree (fun s => ⟨s, []⟩) (fun _ => "g".toList)
        (fun _ => "h".toList)
        (calculateState (fun s => ⟨s, []⟩) (fun _ => "g".toList)
          (fun _ => "h".toList) "t".toList "p".toList
          [BlockNode.mk "a".toList "u".toList [] none]).content
        ([BlockNode.mk "a".toList "u".toList [] none].filter isContentBlock)
        "t".toList.length ∧
      sameShape
        (builtOf (calculateState (fun s => ⟨s, []⟩) (fun _ => "g".toList)
          (fun _ => "h".toList) "t".toList "p".toList
          [BlockNode.mk "a".toList "u".toList [] none])).tree
        ([BlockNode.mk "a".toList "u".toList [] none].filter isContentBlock) =
        true) :=
  ⟨fun _ a ha => absurd ha (List.not_mem_nil a),
   level_reconstruction_inverse.2.1 (fun s => ⟨s, []⟩) (fun _ => "g".toList)
     (fun _ => "h".toList) "t".toList "p".toList
     [BlockNode.mk "a".toList "u".toList [] none]
     (fun _ a ha => absurd ha (List.not_mem_nil a))⟩

theorem casList_keys :
    ∀ (ns : List BlockNode) (i : Nat),
      (casList parse l2g fresh ns i).map Prod.fst = gids l2g fresh ns := by
  intro ns i
  induction ns, i using casList.induct parse l2g fresh with
  | case1 i =>
    rw [casList]
    simp [gids, treeUuids]
  | case2 c u ch vt rest i s e ih1 ih2 =>
    rw [casList]
    simp only [List.map_cons, List.map_append]
    rw [ih1, ih2]
    simp [gids, treeUuids]

theorem casList_bounds :
    ∀ (ns : List BlockNode) (i : Nat),
      ∀ p ∈ casList parse l2g fresh ns i,
        i ≤ p.2.start ∧ p.2.stop ≤ i + (docContent parse ns).length := by
  intro ns i
  induction ns, i using casList.induct parse l2g fresh with
  | case1 i =>
    intro p hp
    rw [casList] at hp
    exact absurd hp (List.not_mem_nil p)
  | case2 c u ch vt rest i s e ih1 ih2 =>
    have he : e = i + (parse (preContent c u)).content.length := rfl
    rw [he] at ih1 ih2
    intro p hp
    rw [casList] at hp
    rw [docContent]
    simp only [List.mem_cons, List.mem_append, List.length_append] at hp ⊢
    rcases hp with rfl | hp | hp
    · simp only []
      omega
    · have := ih1 p hp
      omega
    · have := ih2 p hp
      omega

theorem addToCA_skip {a : Anno} :
    ∀ {cas0 : List (Str × CA)} (rest : List (Str × CA)),
      (∀ p ∈ cas0, ¬(p.2.start ≤ a.start ∧ a.stop ≤ p.2.stop)) →
      addToCA a (cas0 ++ rest) = cas0 ++ addToCA a rest
  | [], rest, _ => by rw [List.nil_append, List.nil_append]
  | (k, ca) :: cs, rest, h => by
    rw [List.cons_append, addToCA, if_neg (h (k, ca) (List.mem_cons_self _ _)),
      addToCA_skip rest fun p hp => h p (List.mem_cons_of_mem _ hp),
      List.cons_append]

theorem addToCA_fold (content : Str) :
    ∀ (l : List Anno) (cas0 : List (Str × CA)) (k : Str) (s e : Nat)
      (acc : List Anno),
      (∀ a ∈ l, s ≤ a.start ∧ a.start < a.stop ∧ a.stop ≤ e) →
      (∀ p ∈ cas0, p.2.stop ≤ s) →
      l.foldl (fun cs a => addToCA a cs) (cas0 ++ [(k, ⟨s, e, acc⟩)]) =
        cas0 ++ [(k, ⟨s, e, acc ++ l⟩)] := by
  intro l
  induction l with
  | nil =>
    intro cas0 k s e acc _ _
    rw [List.foldl_nil, List.append_nil]
  | cons a l ih =>
    intro cas0 k s e acc hl h0
    have ha := hl a (List.mem_cons_self _ _)
    rw [List.foldl_cons,
      addToCA_skip _ (fun p hp hc => by
        have h1 := h0 p hp
        have h2 := hc.2
        have h3 := ha.1
        have h4 := ha.2.1
        omega),
      addToCA, if_pos (⟨ha.1, ha.2.2⟩ : (⟨s, e, acc⟩ : CA).start ≤ a.start ∧
        a.stop ≤ (⟨s, e, acc⟩ : CA).stop)]
    have hres := ih cas0 k s e (acc ++ [a])
      (fun b hb => hl b (List.mem_cons_of_mem _ hb)) h0
    rw [List.append_assoc, List.singleton_append] at hres
    exact hres

theorem foldl_buildStep_other (content : Str) :
    ∀ (l : List Anno) (st : BuildState),
      (∀ a ∈ l, a.type ≠ blockT ∧ a.type ≠ metadataT) →
      l.foldl (buildStep content) st =
        ⟨st.tree, l.foldl (fun cs a => addToCA a cs) st.cas, st.metaAnno⟩ := by
  intro l
  induction l with
  | nil => intro st _; rw [List.foldl_nil, List.foldl_nil]
  | cons a l ih =>
    intro st h
    have ha := h a (List.mem_cons_self _ _)
    rw [List.foldl_cons, List.foldl_cons, buildStep_other ha.1 ha.2,
      ih _ fun b hb => h b (List.mem_cons_of_mem _ hb)]

theorem buildFold_full (content : Str)
    (hb : ParseBounded parse)
    (hwf : ∀ s : Str, ∀ a ∈ (parse s).annos,
      a.type ≠ blockT ∧ a.type ≠ metadataT)
    (hstrict : ∀ s : Str, ∀ a ∈ (parse s).annos, a.start < a.stop) :
    ∀ (ns : List BlockNode) (L i : Nat) (vt : ViewType) (st : BuildState),
      spineOK st.tree L = true →
      (∀ p ∈ st.cas, p.2.stop ≤ i) →
      ((st.cas.map Prod.fst) ++ gids l2g fresh ns).Nodup →
      (toAtJson parse l2g fresh ns L i vt).annos.foldl (buildStep content)
          st =
        ⟨graft (decodeTree parse l2g fresh content ns i) st.tree L,
         st.cas ++ casList parse l2g fresh ns i,
         st.metaAnno⟩ := by
  intro ns L i vt
  induction ns, L, i, vt using toAtJson.induct parse l2g fresh with
  | case1 level idx vt =>
    intro st hsp hstop hnd
    rw [toAtJson, decodeTree, casList]
    simp only [List.foldl_nil, List.append_nil]
    rw [graft_nil_ys]
  | case2 content0 uuid children nvt rest level idx vt parsed e childR ihc ihc2
      ihr =>
    clear ihc2
    have he : e = idx + (parse (preContent content0 uuid)).content.length := rfl
    have hcr : childR = toAtJson parse l2g fresh children (level + 1) e
        (nvt.getD vt) := rfl
    rw [he] at ihc ihr hcr
    rw [hcr] at ihr
    rw [toAtJson_content parse l2g fresh children] at ihr
    intro st hsp hstop hnd
    have hgids : gids l2g fresh (.mk content0 uuid children nvt :: rest) =
        getOrCreateId l2g fresh uuid ::
          (gids l2g fresh children ++ gids l2g fresh rest) := by
      simp [gids, treeUuids]
    rw [hgids] at hnd
    have hndN : (((st.cas.map Prod.fst ++ [getOrCreateId l2g fresh uuid]) ++
        gids l2g fresh children) ++ gids l2g fresh rest).Nodup := by
      simp only [List.append_assoc, List.singleton_append]
      exact hnd
    have hnd_ch : ((st.cas.map Prod.fst ++ [getOrCreateId l2g fresh uuid]) ++
        gids l2g fresh children).Nodup :=
      (List.sublist_append_left _ _).nodup hndN
    have hgid_not : getOrCreateId l2g fresh uuid ∉ st.cas.map Prod.fst := by
      have hsub : (st.cas.map Prod.fst ++
          [getOrCreateId l2g fresh uuid]).Nodup :=
        (List.sublist_append_left _ _).nodup hnd_ch
      rw [List.nodup_append] at hsub
      intro hc
      exact hsub.2.2 hc (List.mem_singleton.mpr rfl)
    have htree : insertAtLevel
        (.mk (sliceJoin content idx
          (idx + (parse (preContent content0 uuid)).content.length))
          (getOrCreateId l2g fresh uuid) [] (some .bullet)) st.tree level =
        graft [.mk (sliceJoin content idx
          (idx + (parse (preContent content0 uuid)).content.length))
          (getOrCreateId l2g fresh uuid) [] (some .bullet)] st.tree level :=
      insertAtLevel_eq_graft _ _ _
    have hcas : upsert (getOrCreateId l2g fresh uuid)
        (⟨idx, idx + (parse (preContent content0 uuid)).content.length, []⟩ : CA)
        st.cas =
        st.cas ++ [(getOrCreateId l2g fresh uuid,
          ⟨idx, idx + (parse (preContent content0 uuid)).content.length, []⟩)] :=
      upsert_eq_append _ _ hgid_not
    have h1 : buildStep content st
        ({ type := blockT, start := idx,
           stop := idx + (parse (preContent content0 uuid)).content.length,
           identifier := getOrCreateId l2g fresh uuid, level := level,
           viewType := vt } : Anno) =
        ⟨graft [.mk (sliceJoin content idx
            (idx + (parse (preContent content0 uuid)).content.length))
            (getOrCreateId l2g fresh uuid) [] (some .bullet)] st.tree level,
         st.cas ++ [(getOrCreateId l2g fresh uuid,
            ⟨idx, idx + (parse (preContent content0 uuid)).content.length, []⟩)],
         st.metaAnno⟩ := by
      rw [buildStep_block rfl, ← htree, ← hcas]
    have h2 : List.foldl (buildStep content)
        (buildStep content st
          ({ type := blockT, start := idx,
             stop := idx + (parse (preContent content0 uuid)).content.length,
             identifier := getOrCreateId l2g fresh uuid, level := level,
             viewType := vt } : Anno))
        ((parse (preContent content0 uuid)).annos.map fun a =>
          { a with start := a.start + idx, stop := a.stop + idx }) =
        ⟨graft [.mk (sliceJoin content idx
            (idx + (parse (preContent content0 uuid)).content.length))
            (getOrCreateId l2g fresh uuid) [] (some .bullet)] st.tree level,
         st.cas ++ [(getOrCreateId l2g fresh uuid,
            ⟨idx, idx + (parse (preContent content0 uuid)).content.length,
             (parse (preContent content0 uuid)).annos.map fun a =>
               { a with start := a.start + idx, stop := a.stop + idx }⟩)],
         st.metaAnno⟩ := by
      rw [h1, foldl_buildStep_other content _ _ ?_]
      · have hfold := addToCA_fold content
          ((parse (preContent content0 uuid)).annos.map fun a =>
            { a with start := a.start + idx, stop := a.stop + idx })
          st.cas (getOrCreateId l2g fresh uuid) idx
          (idx + (parse (preContent content0 uuid)).content.length) [] ?_ ?_
        · rw [List.nil_append] at hfold
          exact congrArg (fun cs => (⟨graft [.mk (sliceJoin content idx
              (idx + (parse (preContent content0 uuid)).content.length))
              (getOrCreateId l2g fresh uuid) [] (some .bullet)] st.tree level,
            cs, st.metaAnno⟩ : BuildState)) hfold
        · intro a ha
          rw [List.mem_map] at ha
          obtain ⟨a0, ha0, rfl⟩ := ha
          have hb0 := hb _ _ ha0
          have hs0 := hstrict _ _ ha0
          refine ⟨?_, ?_, ?_⟩
          · show idx ≤ a0.start + idx
            omega
          · show a0.start + idx < a0.stop + idx
            omega
          · show a0.stop + idx ≤
              idx + (parse (preContent content0 uuid)).content.length
            omega
        · exact hstop
      · intro a ha
        rw [List.mem_map] at ha
        obtain ⟨a0, ha0, rfl⟩ := ha
        exact hwf (preContent content0 uuid) a0 ha0
    have h3 : List.foldl (buildStep content)
        (List.foldl (buildStep content)
          (buildStep content st
            ({ type := blockT, start := idx,
               stop := idx + (parse (preContent content0 uuid)).content.length,
               identifier := getOrCreateId l2g fresh uuid, level := level,
               viewType := vt } : Anno))
          ((parse (preContent content0 uuid)).annos.map fun a =>
            { a with start := a.start + idx, stop := a.stop + idx }))
        (toAtJson parse l2g fresh children (level + 1)
          (idx + (parse (preContent content0 uuid)).content.length)
          (nvt.getD vt)).annos =
        ⟨graft (decodeTree parse l2g fresh content children
            (idx + (parse (preContent content0 uuid)).content.length))
          (graft [.mk (sliceJoin content idx
              (idx + (parse (preContent content0 uuid)).content.length))
            (getOrCreateId l2g fresh uuid) [] (some .bullet)] st.tree level)
          (level + 1),
         (st.cas ++ [(getOrCreateId l2g fresh uuid,
            ⟨idx, idx + (parse (preContent content0 uuid)).content.length,
             (parse (preContent content0 uuid)).annos.map fun a =>
               { a with start := a.start + idx, stop := a.stop + idx }⟩)]) ++
           casList parse l2g fresh children
             (idx + (parse (preContent content0 uuid)).content.length),
         st.metaAnno⟩ := by
      rw [h2]
      exact ihc _ (spineOK_graft_succ (by simp) st.tree level hsp)
        (by
          intro p hp
          rw [List.mem_append] at hp
          rcases hp with hp | hp
          · have := hstop p hp
            omega
          · rw [List.mem_singleton] at hp
            subst hp
            exact Nat.le_refl _)
        (by
          rw [List.map_append]
          exact hnd_ch)
    have hsp4 : spineOK (graft (decodeTree parse l2g fresh content children
        (idx + (parse (preContent content0 uuid)).content.length))
        (graft [.mk (sliceJoin content idx
            (idx + (parse (preContent content0 uuid)).content.length))
          (getOrCreateId l2g fresh uuid) [] (some .bullet)] st.tree level)
        (level + 1)) level = true := by
      rw [graft_nest _ _ _ _ _ _ _ hsp, List.nil_append]
      exact spineOK_graft _ st.tree level hsp
    have hstop4 : ∀ p ∈ (st.cas ++ [(getOrCreateId l2g fresh uuid,
        (⟨idx, idx + (parse (preContent content0 uuid)).content.length,
         (parse (preContent content0 uuid)).annos.map fun a =>
           { a with start := a.start + idx, stop := a.stop + idx }⟩ : CA))]) ++
        casList parse l2g fresh children
          (idx + (parse (preContent content0 uuid)).content.length),
        p.2.stop ≤ idx + (parse (preContent content0 uuid)).content.length +
          (docContent parse children).length := by
      intro p hp
      rw [List.mem_append, List.mem_append] at hp
      rcases hp with (hp | hp) | hp
      · have := hstop p hp
        omega
      · rw [List.mem_singleton] at hp
        subst hp
        simp only []
        omega
      · have := casList_bounds parse l2g fresh children
          (idx + (parse (preContent content0 uuid)).content.length) p hp
        omega
    have hnd4 : (((st.cas ++ [(getOrCreateId l2g fresh uuid,
        (⟨idx, idx + (parse (preContent content0 uuid)).content.length,
         (parse (preContent content0 uuid)).annos.map fun a =>
           { a with start := a.start + idx, stop := a.stop + idx }⟩ : CA))]) ++
        casList parse l2g fresh children
          (idx + (parse (preContent content0 uuid)).content.length)).map
            Prod.fst ++ gids l2g fresh rest).Nodup := by
      simp only [List.map_append, List.map_cons, List.map_nil, casList_keys]
      exact hndN
    have h4 : List.foldl (buildStep content)
        (⟨graft (decodeTree parse l2g fresh content children
            (idx + (parse (preContent content0 uuid)).content.length))
          (graft [.mk (sliceJoin content idx
              (idx + (parse (preContent content0 uuid)).content.length))
            (getOrCreateId l2g fresh uuid) [] (some .bullet)] st.tree level)
          (level + 1),
         (st.cas ++ [(getOrCreateId l2g fresh uuid,
            ⟨idx, idx + (parse (preContent content0 uuid)).content.length,
             (parse (preContent content0 uuid)).annos.map fun a =>
               { a with start := a.start + idx, stop := a.stop + idx }⟩)]) ++
           casList parse l2g fresh children
             (idx + (parse (preContent content0 uuid)).content.length),
         st.metaAnno⟩ : BuildState)
        (toAtJson parse l2g fresh rest level
          (idx + (parse (preContent content0 uuid)).content.length +
            (docContent parse children).length) vt).annos =
        ⟨graft (decodeTree parse l2g fresh content rest
            (idx + (parse (preContent content0 uuid)).content.length +
              (docContent parse children).length))
          (graft (decodeTree parse l2g fresh content children
              (idx + (parse (preContent content0 uuid)).content.length))
            (graft [.mk (sliceJoin content idx
                (idx + (parse (preContent content0 uuid)).content.length))
              (getOrCreateId l2g fresh uuid) [] (some .bullet)] st.tree level)
            (level + 1)) level,
         ((st.cas ++ [(getOrCreateId l2g fresh uuid,
            ⟨idx, idx + (parse (preContent content0 uuid)).content.length,
             (parse (preContent content0 uuid)).annos.map fun a =>
               { a with start := a.start + idx, stop := a.stop + idx }⟩)]) ++
           casList parse l2g fresh children
             (idx + (parse (preContent content0 uuid)).content.length)) ++
           casList parse l2g fresh rest
             (idx + (parse (preContent content0 uuid)).content.length +
               (docContent parse children).length),
         st.metaAnno⟩ :=
      ihr _ hsp4 hstop4 hnd4
    rw [toAtJson, decodeTree, casList]
    simp only []
    rw [toAtJson_content parse l2g fresh children]
    rw [List.foldl_cons, List.foldl_append, List.foldl_append]
    rw [h3, h4]
    rw [graft_nest _ _ _ _ _ _ _ hsp, List.nil_append,
      ← graft_append_graft _ _ st.tree level hsp, List.singleton_append]
    simp only [List.append_assoc, List.cons_append, List.nil_append,
      List.singleton_append]

theorem getOrCreateId_eq {l2g fresh : Str → Str} {u : Str} (h : l2g u ≠ []) :
    getOrCreateId l2g fresh u = l2g u := by
  rw [getOrCreateId, if_neg h]

theorem builtOf_calculateState_full
    (hb : ParseBounded parse)
    (hwf : ∀ s : Str, ∀ a ∈ (parse s).annos,
      a.type ≠ blockT ∧ a.type ≠ metadataT)
    (hstrict : ∀ s : Str, ∀ a ∈ (parse s).annos, a.start < a.stop)
    (title parentUuid : Str) (nodes : List BlockNode)
    (hnd : (gids l2g fresh (nodes.filter isContentBlock)).Nodup) :
    builtOf (calculateState parse l2g fresh title parentUuid nodes) =
      ⟨decodeTree parse l2g fresh
          (title ++ docContent parse (nodes.filter isContentBlock))
          (nodes.filter isContentBlock) title.length,
        casList parse l2g fresh (nodes.filter isContentBlock) title.length,
        some (title, parentUuid)⟩ := by
  unfold builtOf calculateState
  simp only []
  rw [toAtJson_content parse l2g fresh]
  rw [List.foldl_cons,
    buildStep_metadata (show metadataT ≠ blockT by decide) rfl]
  have h := buildFold_full parse l2g fresh
    (title ++ docContent parse (nodes.filter isContentBlock)) hb hwf hstrict
    (nodes.filter isContentBlock) 0 title.length ViewType.bullet
    (⟨[], [], some (title, parentUuid)⟩ : BuildState)
    (by rw [spineOK]) (fun p hp => absurd hp (List.not_mem_nil p))
    (by rw [List.map_nil, List.nil_append]; exact hnd)
  rw [h]
  rw [graft, List.nil_append, List.nil_append]

theorem lookup_append_left {α : Type} {k : Str} :
    ∀ {l1 : List (Str × α)} (l2 : List (Str × α)),
      k ∈ l1.map Prod.fst → (l1 ++ l2).lookup k = l1.lookup k
  | [], _, h => by simp at h
  | (k0, v0) :: rest, l2, h => by
    by_cases hk : k = k0
    · subst hk
      rw [List.cons_append, List.lookup, List.lookup]
      simp
    · have hbeq : (k == k0) = false := beq_eq_false_iff_ne.mpr hk
      rw [List.cons_append, List.lookup, hbeq, List.lookup, hbeq]
      refine lookup_append_left l2 ?_
      rw [List.map_cons] at h
      rcases List.mem_cons.mp h with h | h
      · exact absurd h hk
      · exact h

theorem lookup_append_right {α : Type} {k : Str} :
    ∀ {l1 : List (Str × α)} (l2 : List (Str × α)),
      k ∉ l1.map Prod.fst → (l1 ++ l2).lookup k = l2.lookup k
  | [], _, _ => by rw [List.nil_append]
  | (k0, v0) :: rest, l2, h => by
    rw [List.map_cons, List.mem_cons, not_or] at h
    have hbeq : (k == k0) = false := beq_eq_false_iff_ne.mpr h.1
    rw [List.cons_append, List.lookup, hbeq]
    exact lookup_append_right l2 h.2

theorem serializeNode_eq (cas : List (Str × CA)) (c u : Str)
    (ch : List BlockNode) (vt : Option ViewType) {ca : CA}
    (h : cas.lookup u = some ca) :
    serializeNode cas (.mk c u ch vt) =
      .mk (annotate c (normalizeCA ca)) u (serializeList cas ch) vt := by
  simp only [serializeNode, h]

theorem serializeList_decodeTree (content : Str)
    (hrt : ∀ s : Str, annotate (parse s).content (parse s).annos = s) :
    ∀ (ns : List BlockNode) (i : Nat) (fullCas : List (Str × CA)) (tail : Str),
      content.drop i = docContent parse ns ++ tail →
      (gids l2g fresh ns).Nodup →
      (∀ k ∈ gids l2g fresh ns,
        fullCas.lookup k = (casList parse l2g fresh ns i).lookup k) →
      (∀ b ∈ nodesList ns, preContent b.content b.uuid = b.content) →
      serializeList fullCas (decodeTree parse l2g fresh content ns i) =
        relabel l2g fresh ns := by
  intro ns
  induction ns using relabel.induct l2g fresh with
  | case1 =>
    intro i fullCas tail _ _ _ _
    rw [decodeTree, serializeList, relabel]
  | case2 c u ch vt rest ih1 ih2 =>
    intro i fullCas tail hdrop hnd hlook hstrip
    have hgids : gids l2g fresh (.mk c u ch vt :: rest) =
        getOrCreateId l2g fresh u ::
          (gids l2g fresh ch ++ gids l2g fresh rest) := by
      simp [gids, treeUuids]
    rw [hgids] at hnd
    rw [List.nodup_cons] at hnd
    have hnotin := hnd.1
    have hndCR := hnd.2
    rw [List.nodup_append] at hndCR
    have hnodes : nodesList (.mk c u ch vt :: rest) =
        .mk c u ch vt :: (nodesList ch ++ nodesList rest) := by
      rw [nodesList]
    rw [docContent, List.append_assoc, List.append_assoc] at hdrop
    have h1 : fullCas.lookup (getOrCreateId l2g fresh u) =
        some ⟨i, i + (parse (preContent c u)).content.length,
          (parse (preContent c u)).annos.map fun a =>
            { a with start := a.start + i, stop := a.stop + i }⟩ := by
      rw [hlook (getOrCreateId l2g fresh u)
        (by rw [hgids]; exact List.mem_cons_self _ _)]
      rw [casList, List.lookup]
      simp
    have hslice : sliceJoin content i
        (i + (parse (preContent c u)).content.length) =
        (parse (preContent c u)).content := by
      unfold sliceJoin
      rw [hdrop, Nat.add_sub_cancel_left, List.take_left]
    have hnorm : normalizeCA
        (⟨i, i + (parse (preContent c u)).content.length,
          (parse (preContent c u)).annos.map fun a =>
            { a with start := a.start + i, stop := a.stop + i }⟩ : CA) =
        (parse (preContent c u)).annos := by
      simp only [normalizeCA, List.map_map]
      conv_rhs => rw [← List.map_id ((parse (preContent c u)).annos)]
      refine List.map_congr_left ?_
      intro a _
      show ({ a with start := a.start + i - i, stop := a.stop + i - i } :
        Anno) = a
      rw [Nat.add_sub_cancel, Nat.add_sub_cancel]
    have hcontent : annotate
        (sliceJoin content i (i + (parse (preContent c u)).content.length))
        (normalizeCA (⟨i, i + (parse (preContent c u)).content.length,
          (parse (preContent c u)).annos.map fun a =>
            { a with start := a.start + i, stop := a.stop + i }⟩ : CA)) = c := by
      rw [hslice, hnorm, hrt]
      exact hstrip (.mk c u ch vt) (by rw [hnodes]; exact List.mem_cons_self _ _)
    have hch : serializeList fullCas (decodeTree parse l2g fresh content ch
        (i + (parse (preContent c u)).content.length)) =
        relabel l2g fresh ch := by
      refine ih1 (i + (parse (preContent c u)).content.length) fullCas
        (docContent parse rest ++ tail) ?_ hndCR.1 ?_ ?_
      · have hd2 : content.drop
            (i + (parse (preContent c u)).content.length) =
            ((content.drop i).drop
              (parse (preContent c u)).content.length) := by
          rw [List.drop_drop, Nat.add_comm]
        rw [hd2, hdrop, List.drop_left]
      · intro k hk
        rw [hlook k (by rw [hgids]
                        exact List.mem_cons_of_mem _ (List.mem_append_left _ hk))]
        have hkne : (k == getOrCreateId l2g fresh u) = false :=
          beq_eq_false_iff_ne.mpr fun he =>
            hnotin (he ▸ List.mem_append_left _ hk)
        rw [casList, List.lookup, hkne]
        exact lookup_append_left _ (by rw [casList_keys]; exact hk)
      · intro b hb
        exact hstrip b (by
          rw [hnodes]
          exact List.mem_cons_of_mem _ (List.mem_append_left _ hb))
    have hre : serializeList fullCas (decodeTree parse l2g fresh content rest
        (i + (parse (preContent c u)).content.length +
          (docContent parse ch).length)) =
        relabel l2g fresh rest := by
      refine ih2 (i + (parse (preContent c u)).content.length +
          (docContent parse ch).length) fullCas tail ?_ hndCR.2.1 ?_ ?_
      · have hd2 : content.drop
            (i + (parse (preContent c u)).content.length +
              (docContent parse ch).length) =
            ((content.drop
                (i + (parse (preContent c u)).content.length)).drop
              (docContent parse ch).length) := by
          rw [List.drop_drop, Nat.add_comm]
        have hd3 : content.drop
            (i + (parse (preContent c u)).content.length) =
            docContent parse ch ++ (docContent parse rest ++ tail) := by
          have hd4 : content.drop
              (i + (parse (preContent c u)).content.length) =
              ((content.drop i).drop
                (parse (preContent c u)).content.length) := by
            rw [List.drop_drop, Nat.add_comm]
          rw [hd4, hdrop, List.drop_left]
        rw [hd2, hd3, List.drop_left]
      · intro k hk
        rw [hlook k (by rw [hgids]
                        exact List.mem_cons_of_mem _ (List.mem_append_right _ hk))]
        have hkne : (k == getOrCreateId l2g fresh u) = false :=
          beq_eq_false_iff_ne.mpr fun he =>
            hnotin (he ▸ List.mem_append_right _ hk)
        rw [casList, List.lookup, hkne]
        exact lookup_append_right _ (by
          rw [casList_keys]
          intro hc
          exact hndCR.2.2 hc hk)
      · intro b hb
        exact hstrip b (by
          rw [hnodes]
          exact List.mem_cons_of_mem _ (List.mem_append_right _ hb))
    rw [decodeTree, serializeList,
      serializeNode_eq fullCas _ _ _ _ h1, relabel, hcontent, hch, hre]

theorem flattenAux_parent_mem :
    ∀ (ns : List BlockNode) (p : Str) (o : Nat), ∀ pr ∈ flattenAux p o ns,
      pr.2.parentUuid = p ∨ pr.2.parentUuid ∈ treeUuids ns := by
  intro ns
  induction ns using nodesList.induct with
  | case1 =>
    intro p o pr hpr
    rw [flattenAux] at hpr
    exact absurd hpr (List.not_mem_nil pr)
  | case2 c u ch vt rest ih1 ih2 =>
    intro p o pr hpr
    rw [flattenAux] at hpr
    have htu : treeUuids (.mk c u ch vt :: rest) =
        u :: (treeUuids ch ++ treeUuids rest) := by rw [treeUuids]
    rw [htu]
    rcases List.mem_cons.mp hpr with rfl | hpr
    · exact Or.inl rfl
    · rcases List.mem_append.mp hpr with hpr | hpr
      · rcases ih1 u 0 pr hpr with h | h
        · exact Or.inr (h ▸ List.mem_cons_self _ _)
        · exact Or.inr (List.mem_cons_of_mem _ (List.mem_append_left _ h))
      · rcases ih2 p (o + 1) pr hpr with h | h
        · exact Or.inl h
        · exact Or.inr (List.mem_cons_of_mem _ (List.mem_append_right _ h))

theorem flattenAux_relabel :
    ∀ (ns : List BlockNode) (p q : Str) (o : Nat),
      (treeUuids ns).Nodup → p ∉ treeUuids ns →
      flattenAux q o (relabel l2g fresh ns) =
        (flattenAux p o ns).map fun pr =>
          (getOrCreateId l2g fresh pr.1,
           ⟨pr.2.content, some .bullet, pr.2.order,
            if pr.2.parentUuid = p then q
            else getOrCreateId l2g fresh pr.2.parentUuid⟩) := by
  intro ns
  induction ns using nodesList.induct with
  | case1 =>
    intro p q o _ _
    rw [relabel, flattenAux, flattenAux, List.map_nil]
  | case2 c u ch vt rest ih1 ih2 =>
    intro p q o hnd hp
    have htu : treeUuids (.mk c u ch vt :: rest) =
        u :: (treeUuids ch ++ treeUuids rest) := by rw [treeUuids]
    rw [htu] at hnd hp
    rw [List.nodup_cons] at hnd
    obtain ⟨hunotin, hndCR⟩ := hnd
    rw [List.mem_cons, not_or] at hp
    obtain ⟨hpu, hpCR⟩ := hp
    rw [List.mem_append, not_or] at hpCR
    rw [List.nodup_append] at hndCR
    have huch : u ∉ treeUuids ch :=
      fun hc => hunotin (List.mem_append_left _ hc)
    rw [relabel, flattenAux, flattenAux, List.map_cons, List.map_append]
    congr 1
    · simp
    · congr 1
      · rw [ih1 u (getOrCreateId l2g fresh u) 0 hndCR.1 huch]
        refine List.map_congr_left ?_
        intro pr hpr
        rcases flattenAux_parent_mem ch u 0 pr hpr with hpar | hpar
        · rw [hpar, if_pos rfl, if_neg (fun h => hpu h.symm)]
        · rw [if_neg (fun he : pr.2.parentUuid = u => huch (he ▸ hpar)),
            if_neg (fun he : pr.2.parentUuid = p => hpCR.1 (he ▸ hpar))]
      · rw [ih2 p q (o + 1) hndCR.2.1 hpCR.2]

theorem desiredTreeOf_calculateState
    (hb : ParseBounded parse)
    (hwf : ∀ s : Str, ∀ a ∈ (parse s).annos,
      a.type ≠ blockT ∧ a.type ≠ metadataT)
    (hstrict : ∀ s : Str, ∀ a ∈ (parse s).annos, a.start < a.stop)
    (hrt : ∀ s : Str, annotate (parse s).content (parse s).annos = s)
    (title parentUuid : Str) (nodes : List BlockNode)
    (hfilter : nodes.filter isContentBlock = nodes)
    (hgnd : (gids l2g fresh nodes).Nodup)
    (hstrip : ∀ b ∈ nodesList nodes, preContent b.content b.uuid = b.content) :
    desiredTreeOf (calculateState parse l2g fresh title parentUuid nodes) =
      relabel l2g fresh nodes := by
  unfold desiredTreeOf
  rw [builtOf_calculateState_full parse l2g fresh hb hwf hstrict title
    parentUuid nodes (by rw [hfilter]; exact hgnd)]
  rw [hfilter]
  exact serializeList_decodeTree parse l2g fresh _ hrt nodes title.length
    (casList parse l2g fresh nodes title.length) []
    (by rw [List.drop_left, List.append_nil])
    hgnd (fun k _ => rfl) hstrip

theorem mem_fst_treeUuids {nodes : List BlockNode} {pr : Str × FlatEntry}
    {p : Str} {o : Nat} (h : pr ∈ flattenAux p o nodes) :
    pr.1 ∈ treeUuids nodes := by
  have h2 := List.mem_map_of_mem Prod.fst h
  rw [flattenAux_keys] at h2
  exact h2

theorem expMapOf_calculateState
    (hb : ParseBounded parse)
    (hwf : ∀ s : Str, ∀ a ∈ (parse s).annos,
      a.type ≠ blockT ∧ a.type ≠ metadataT)
    (hstrict : ∀ s : Str, ∀ a ∈ (parse s).annos, a.start < a.stop)
    (hrt : ∀ s : Str, annotate (parse s).content (parse s).annos = s)
    (title parentUuid pageId : Str) (nodes : List BlockNode)
    (hfilter : nodes.filter isContentBlock = nodes)
    (hnd : (treeUuids nodes).Nodup)
    (hgnd : (gids l2g fresh nodes).Nodup)
    (hpage : pageId ∉ treeUuids nodes)
    (hl2g : ∀ w ∈ treeUuids nodes, l2g w ≠ [])
    (hstrip : ∀ b ∈ nodesList nodes, preContent b.content b.uuid = b.content) :
    expMapOf pageId (calculateState parse l2g fresh title parentUuid nodes) =
      (flattenAux pageId 0 nodes).map fun pr =>
        (getOrCreateId l2g fresh pr.1,
         ⟨pr.2.content, some .bullet, pr.2.order,
          if pr.2.parentUuid = pageId then pageId
          else getOrCreateId l2g fresh pr.2.parentUuid⟩) := by
  unfold expMapOf flattenTree
  rw [desiredTreeOf_calculateState parse l2g fresh hb hwf hstrict hrt title
    parentUuid nodes hfilter hgnd hstrip]
  rw [flattenAux_relabel l2g fresh nodes pageId pageId 0 hnd hpage]
  have hkeys : List.map Prod.fst
      (List.map (fun pr =>
        (getOrCreateId l2g fresh pr.1,
         (⟨pr.2.content, some .bullet, pr.2.order,
          if pr.2.parentUuid = pageId then pageId
          else getOrCreateId l2g fresh pr.2.parentUuid⟩ : FlatEntry)))
        (flattenAux pageId 0 nodes)) = gids l2g fresh nodes := by
    rw [List.map_map]
    have hcomp : (Prod.fst ∘ fun pr : Str × FlatEntry =>
        (getOrCreateId l2g fresh pr.1,
         (⟨pr.2.content, some .bullet, pr.2.order,
          if pr.2.parentUuid = pageId then pageId
          else getOrCreateId l2g fresh pr.2.parentUuid⟩ : FlatEntry))) =
        (fun pr : Str × FlatEntry => getOrCreateId l2g fresh pr.1) := rfl
    rw [hcomp, gids, ← flattenAux_keys pageId 0 nodes, List.map_map]
    rfl
  rw [List.filter_eq_self.mpr ?_]
  · exact objFromEntries_id (by rw [hkeys]; exact hgnd)
  · intro p hp
    rw [List.mem_map] at hp
    obtain ⟨pr, hpr, rfl⟩ := hp
    have hne : l2g pr.1 ≠ [] := hl2g pr.1 (mem_fst_treeUuids hpr)
    simp only [getOrCreateId_eq hne]
    simp [List.isEmpty_iff, hne]

theorem actMapOf_id (pageId : Str) (nodes : List BlockNode)
    (hfilter : nodes.filter isContentBlock = nodes)
    (hnd : (treeUuids nodes).Nodup) :
    actMapOf pageId nodes = flattenAux pageId 0 nodes := by
  unfold actMapOf flattenTree
  rw [hfilter]
  exact objFromEntries_id (by rw [flattenAux_keys]; exact hnd)

theorem eS2L_calculateState (g2lM : List (Str × Str))
    (hb : ParseBounded parse)
    (hwf : ∀ s : Str, ∀ a ∈ (parse s).annos,
      a.type ≠ blockT ∧ a.type ≠ metadataT)
    (hstrict : ∀ s : Str, ∀ a ∈ (parse s).annos, a.start < a.stop)
    (hrt : ∀ s : Str, annotate (parse s).content (parse s).annos = s)
    (title parentUuid pageId : Str) (nodes : List BlockNode)
    (hfilter : nodes.filter isContentBlock = nodes)
    (hnd : (treeUuids nodes).Nodup)
    (hgnd : (gids l2g fresh nodes).Nodup)
    (hpage : pageId ∉ treeUuids nodes)
    (hl2g : ∀ w ∈ treeUuids nodes, l2g w ≠ [])
    (hg2l : ∀ w ∈ treeUuids nodes,
      g2lM.lookup (getOrCreateId l2g fresh w) = some w)
    (hstrip : ∀ b ∈ nodesList nodes, preContent b.content b.uuid = b.content) :
    eS2LOf g2lM pageId
        (calculateState parse l2g fresh title parentUuid nodes) =
      (flattenAux pageId 0 nodes).map fun pr =>
        (getOrCreateId l2g fresh pr.1, pr.1) := by
  unfold eS2LOf
  rw [expMapOf_calculateState parse l2g fresh hb hwf hstrict hrt title
    parentUuid pageId nodes hfilter hnd hgnd hpage hl2g hstrip]
  rw [List.map_map]
  have hmap : List.map ((fun p : Str × FlatEntry => (p.1, lookupD g2lM p.1)) ∘
      fun pr : Str × FlatEntry =>
        (getOrCreateId l2g fresh pr.1,
         (⟨pr.2.content, some .bullet, pr.2.order,
          if pr.2.parentUuid = pageId then pageId
          else getOrCreateId l2g fresh pr.2.parentUuid⟩ : FlatEntry)))
      (flattenAux pageId 0 nodes) =
      List.map (fun pr : Str × FlatEntry =>
        (getOrCreateId l2g fresh pr.1, pr.1)) (flattenAux pageId 0 nodes) := by
    refine List.map_congr_left ?_
    intro pr hpr
    show (getOrCreateId l2g fresh pr.1,
      lookupD g2lM (getOrCreateId l2g fresh pr.1)) =
      (getOrCreateId l2g fresh pr.1, pr.1)
    rw [lookupD, hg2l pr.1 (mem_fst_treeUuids hpr)]
    rfl
  rw [hmap]
  refine objFromEntries_id ?_
  rw [List.map_map]
  have hcomp2 : (Prod.fst ∘ fun pr : Str × FlatEntry =>
      (getOrCreateId l2g fresh pr.1, pr.1)) =
      (fun pr : Str × FlatEntry => getOrCreateId l2g fresh pr.1) := rfl
  rw [hcomp2, gids, ← flattenAux_keys pageId 0 nodes, List.map_map] at *
  exact hgnd

theorem metaOpOf_calculateState
    (hb : ParseBounded parse)
    (hwf : ∀ s : Str, ∀ a ∈ (parse s).annos,
      a.type ≠ blockT ∧ a.type ≠ metadataT)
    (hstrict : ∀ s : Str, ∀ a ∈ (parse s).annos, a.start < a.stop)
    (title parentUuid : Str) (nodes : List BlockNode)
    (hfilter : nodes.filter isContentBlock = nodes)
    (hgnd : (gids l2g fresh nodes).Nodup) :
    metaOpOf (calculateState parse l2g fresh title parentUuid nodes) =
      Op.metaOp title parentUuid := by
  unfold metaOpOf
  rw [builtOf_calculateState_full parse l2g fresh hb hwf hstrict title
    parentUuid nodes (by rw [hfilter]; exact hgnd)]

theorem toCreateOf_empty (g2lM : List (Str × Str))
    (hb : ParseBounded parse)
    (hwf : ∀ s : Str, ∀ a ∈ (parse s).annos,
      a.type ≠ blockT ∧ a.type ≠ metadataT)
    (hstrict : ∀ s : Str, ∀ a ∈ (parse s).annos, a.start < a.stop)
    (hrt : ∀ s : Str, annotate (parse s).content (parse s).annos = s)
    (title parentUuid pageId : Str) (nodes : List BlockNode)
    (hfilter : nodes.filter isContentBlock = nodes)
    (hnd : (treeUuids nodes).Nodup)
    (hgnd : (gids l2g fresh nodes).Nodup)
    (hpage : pageId ∉ treeUuids nodes)
    (hl2g : ∀ w ∈ treeUuids nodes, l2g w ≠ [])
    (hg2l : ∀ w ∈ treeUuids nodes,
      g2lM.lookup (getOrCreateId l2g fresh w) = some w)
    (hnn : ∀ w ∈ treeUuids nodes, w ≠ [])
    (hstrip : ∀ b ∈ nodesList nodes, preContent b.content b.uuid = b.content) :
    toCreateOf g2lM pageId
      (calculateState parse l2g fresh title parentUuid nodes) nodes = [] := by
  unfold toCreateOf
  rw [eS2L_calculateState parse l2g fresh g2lM hb hwf hstrict hrt title
    parentUuid pageId nodes hfilter hnd hgnd hpage hl2g hg2l hstrip,
    actMapOf_id pageId nodes hfilter hnd]
  refine List.filter_eq_nil_iff.mpr ?_
  intro p hp
  rw [List.mem_map] at hp
  obtain ⟨pr, hpr, rfl⟩ := hp
  have h1 : List.lookup pr.1 (flattenAux pageId 0 nodes) = some pr.2 :=
    lookup_eq_of_mem_of_nodup _ (by rw [flattenAux_keys]; exact hnd) hpr
  have h2 : pr.1 ≠ [] := hnn pr.1 (mem_fst_treeUuids hpr)
  simp [h1, List.isEmpty_iff, h2]

theorem toUpdateOf_all (g2lM : List (Str × Str))
    (hb : ParseBounded parse)
    (hwf : ∀ s : Str, ∀ a ∈ (parse s).annos,
      a.type ≠ blockT ∧ a.type ≠ metadataT)
    (hstrict : ∀ s : Str, ∀ a ∈ (parse s).annos, a.start < a.stop)
    (hrt : ∀ s : Str, annotate (parse s).content (parse s).annos = s)
    (title parentUuid pageId : Str) (nodes : List BlockNode)
    (hfilter : nodes.filter isContentBlock = nodes)
    (hnd : (treeUuids nodes).Nodup)
    (hgnd : (gids l2g fresh nodes).Nodup)
    (hpage : pageId ∉ treeUuids nodes)
    (hl2g : ∀ w ∈ treeUuids nodes, l2g w ≠ [])
    (hg2l : ∀ w ∈ treeUuids nodes,
      g2lM.lookup (getOrCreateId l2g fresh w) = some w)
    (hstrip : ∀ b ∈ nodesList nodes, preContent b.content b.uuid = b.content) :
    toUpdateOf g2lM pageId
      (calculateState parse l2g fresh title parentUuid nodes) nodes =
      (flattenAux pageId 0 nodes).map fun pr =>
        (getOrCreateId l2g fresh pr.1, pr.1) := by
  unfold toUpdateOf
  rw [eS2L_calculateState parse l2g fresh g2lM hb hwf hstrict hrt title
    parentUuid pageId nodes hfilter hnd hgnd hpage hl2g hg2l hstrip,
    actMapOf_id pageId nodes hfilter hnd]
  refine List.filter_eq_self.mpr ?_
  intro p hp
  rw [List.mem_map] at hp
  obtain ⟨pr, hpr, rfl⟩ := hp
  have h1 : List.lookup pr.1 (flattenAux pageId 0 nodes) = some pr.2 :=
    lookup_eq_of_mem_of_nodup _ (by rw [flattenAux_keys]; exact hnd) hpr
  simp [h1]

theorem toDeleteOf_empty (g2lM : List (Str × Str))
    (hb : ParseBounded parse)
    (hwf : ∀ s : Str, ∀ a ∈ (parse s).annos,
      a.type ≠ blockT ∧ a.type ≠ metadataT)
    (hstrict : ∀ s : Str, ∀ a ∈ (parse s).annos, a.start < a.stop)
    (hrt : ∀ s : Str, annotate (parse s).content (parse s).annos = s)
    (title parentUuid pageId : Str) (nodes : List BlockNode)
    (hfilter : nodes.filter isContentBlock = nodes)
    (hnd : (treeUuids nodes).Nodup)
    (hgnd : (gids l2g fresh nodes).Nodup)
    (hpage : pageId ∉ treeUuids nodes)
    (hl2g : ∀ w ∈ treeUuids nodes, l2g w ≠ [])
    (hg2l : ∀ w ∈ treeUuids nodes,
      g2lM.lookup (getOrCreateId l2g fresh w) = some w)
    (hnn : ∀ w ∈ treeUuids nodes, w ≠ [])
    (hstrip : ∀ b ∈ nodesList nodes, preContent b.content b.uuid = b.content) :
    toDeleteOf g2lM pageId
      (calculateState parse l2g fresh title parentUuid nodes) nodes = [] := by
  unfold toDeleteOf expectedUuidsOf
  rw [eS2L_calculateState parse l2g fresh g2lM hb hwf hstrict hrt title
    parentUuid pageId nodes hfilter hnd hgnd hpage hl2g hg2l hstrip,
    actMapOf_id pageId nodes hfilter hnd, flattenAux_keys]
  refine List.filter_eq_nil_iff.mpr ?_
  intro k hk
  have hk2 := hk
  rw [← flattenAux_keys pageId 0 nodes] at hk2
  obtain ⟨pr, hpr, hfst⟩ := List.mem_map.mp hk2
  have hkE : k ∈ (((flattenAux pageId 0 nodes).map fun pr =>
      (getOrCreateId l2g fresh pr.1, pr.1)).map Prod.snd).filter
        fun r => !r.isEmpty := by
    rw [List.mem_filter]
    constructor
    · rw [List.map_map]
      exact List.mem_map.mpr ⟨pr, hpr, hfst⟩
    · simp [List.isEmpty_iff, hnn k hk]
  intro hc
  rw [decide_eq_true hkE] at hc
  exact Bool.false_ne_true hc

theorem execOp_metaOp_ok (env : HostEnv) (pageId : Str) (st : RunState)
    (title parentA : Str) (hpt : env.pageTitle = some title) :
    execOp env pageId st (.metaOp title parentA) = .ok st := by
  simp only [execOp, hpt]
  rw [if_true]

theorem execOp_upd_noop (env : HostEnv) (pageId : Str) (st : RunState)
    (d : UpdData)
    (hpar : d.actualParent =
      (if d.spParent = pageId then d.spParent
       else lookupD st.spToLocal d.spParent))
    (hord : d.actualOrder = d.order)
    (hcont : d.actualContent = d.content) :
    execOp env pageId st (.upd d) = .ok st := by
  simp only [execOp]
  rw [if_neg (fun hc : d.actualParent ≠
      (if d.spParent = pageId then d.spParent
       else lookupD st.spToLocal d.spParent) ∨ d.actualOrder ≠ d.order =>
    hc.elim (fun h => h hpar) (fun h => h hord)),
    if_neg (fun h : d.actualContent ≠ d.content => h hcont)]

theorem runOps_cons_ok (env : HostEnv) (pageId : Str) (o : Op) (rest : List Op)
    (st st1 : RunState) (h : execOp env pageId st o = .ok st1) :
    runOps env pageId (o :: rest) st = runOps env pageId rest st1 := by
  rw [runOps, h]

theorem runOps_all_ok (env : HostEnv) (pageId : Str) :
    ∀ (l : List Op) (st : RunState),
      (∀ o ∈ l, execOp env pageId st o = .ok st) →
      runOps env pageId l st = (st, none) := by
  intro l
  induction l with
  | nil => intro st _; rw [runOps]
  | cons o rest ih =>
    intro st h
    rw [runOps_cons_ok env pageId o rest st st (h o (List.mem_cons_self _ _))]
    exact ih st fun o' ho' => h o' (List.mem_cons_of_mem _ ho')

/-- C2 (amended): the round trip `applyState(pageId, calculateState(pageId))`
against the unchanged tree emits no host mutation at all and leaves the
identifier maps untouched, provided the identifier mappings are populated and
faithful (every block uuid has a nonempty mapped global id, mapped back by the
global-to-local map; ids are distinct; the page id collides with nothing), each
block's raw content survives the encoder's property-line stripping unchanged,
the tree is already content-filtered, the host page title already matches, and
the external inline codec is well-formed and round-trips annotated text. -/
theorem applyState_roundtrip_noop
    (env : HostEnv) (l2gM g2lM : List (Str × Str))
    (title parentUuid pageId : Str) (nodes : List BlockNode)
    (hb : ParseBounded parse)
    (hwf : ∀ s : Str, ∀ a ∈ (parse s).annos,
      a.type ≠ blockT ∧ a.type ≠ metadataT)
    (hstrict : ∀ s : Str, ∀ a ∈ (parse s).annos, a.start < a.stop)
    (hrt : ∀ s : Str, annotate (parse s).content (parse s).annos = s)
    (hfilter : nodes.filter isContentBlock = nodes)
    (hnd : (treeUuids nodes).Nodup)
    (hgnd : (gids l2g fresh nodes).Nodup)
    (hpage : pageId ∉ treeUuids nodes)
    (hpageG : pageId ∉ gids l2g fresh nodes)
    (hl2g : ∀ w ∈ treeUuids nodes, l2g w ≠ [])
    (hg2l : ∀ w ∈ treeUuids nodes,
      g2lM.lookup (getOrCreateId l2g fresh w) = some w)
    (hnn : ∀ w ∈ treeUuids nodes, w ≠ [])
    (hstrip : ∀ b ∈ nodesList nodes, preContent b.content b.uuid = b.content)
    (hpt : env.pageTitle = some title) :
    runApplyState env l2gM g2lM pageId
      (calculateState parse l2g fresh title parentUuid nodes) nodes =
      (⟨l2gM, g2lM,
        (flattenAux pageId 0 nodes).map fun pr =>
          (getOrCreateId l2g fresh pr.1, pr.1), []⟩, none) := by
  unfold runApplyState
  rw [eS2L_calculateState parse l2g fresh g2lM hb hwf hstrict hrt title
    parentUuid pageId nodes hfilter hnd hgnd hpage hl2g hg2l hstrip]
  rw [opsOf]
  rw [metaOpOf_calculateState parse l2g fresh hb hwf hstrict title parentUuid
      nodes hfilter hgnd,
    toDeleteOf_empty parse l2g fresh g2lM hb hwf hstrict hrt title parentUuid
      pageId nodes hfilter hnd hgnd hpage hl2g hg2l hnn hstrip,
    toCreateOf_empty parse l2g fresh g2lM hb hwf hstrict hrt title parentUuid
      pageId nodes hfilter hnd hgnd hpage hl2g hg2l hnn hstrip,
    toUpdateOf_all parse l2g fresh g2lM hb hwf hstrict hrt title parentUuid
      pageId nodes hfilter hnd hgnd hpage hl2g hg2l hstrip]
  simp only [List.map_nil, List.append_nil, List.singleton_append]
  rw [runOps_cons_ok env pageId _ _ _ _
    (execOp_metaOp_ok env pageId _ title parentUuid hpt)]
  have hEXP := expMapOf_calculateState parse l2g fresh hb hwf hstrict hrt
    title parentUuid pageId nodes hfilter hnd hgnd hpage hl2g hstrip
  have hACT := actMapOf_id pageId nodes hfilter hnd
  have hkeysF : List.map Prod.fst
      (List.map (fun pr =>
        (getOrCreateId l2g fresh pr.1,
         (⟨pr.2.content, some .bullet, pr.2.order,
          if pr.2.parentUuid = pageId then pageId
          else getOrCreateId l2g fresh pr.2.parentUuid⟩ : FlatEntry)))
        (flattenAux pageId 0 nodes)) = gids l2g fresh nodes := by
    rw [List.map_map]
    have hcomp : (Prod.fst ∘ fun pr : Str × FlatEntry =>
        (getOrCreateId l2g fresh pr.1,
         (⟨pr.2.content, some .bullet, pr.2.order,
          if pr.2.parentUuid = pageId then pageId
          else getOrCreateId l2g fresh pr.2.parentUuid⟩ : FlatEntry))) =
        (fun pr : Str × FlatEntry => getOrCreateId l2g fresh pr.1) := rfl
    rw [hcomp, gids, ← flattenAux_keys pageId 0 nodes, List.map_map]
    rfl
  have hkeysES : List.map Prod.fst
      (List.map (fun pr : Str × FlatEntry =>
        (getOrCreateId l2g fresh pr.1, pr.1))
        (flattenAux pageId 0 nodes)) = gids l2g fresh nodes := by
    rw [List.map_map]
    have hcomp : (Prod.fst ∘ fun pr : Str × FlatEntry =>
        (getOrCreateId l2g fresh pr.1, pr.1)) =
        (fun pr : Str × FlatEntry => getOrCreateId l2g fresh pr.1) := rfl
    rw [hcomp, gids, ← flattenAux_keys pageId 0 nodes, List.map_map]
    rfl
  refine runOps_all_ok env pageId _ _ ?_
  intro o ho
  rw [List.map_map] at ho
  obtain ⟨pr, hpr, rfl⟩ := List.mem_map.mp ho
  have hE : lookupEntry (expMapOf pageId
      (calculateState parse l2g fresh title parentUuid nodes))
      (getOrCreateId l2g fresh pr.1) =
      ⟨pr.2.content, some .bullet, pr.2.order,
       if pr.2.parentUuid = pageId then pageId
       else getOrCreateId l2g fresh pr.2.parentUuid⟩ := by
    have hlk : List.lookup (getOrCreateId l2g fresh pr.1)
        (List.map (fun pr =>
          (getOrCreateId l2g fresh pr.1,
           (⟨pr.2.content, some .bullet, pr.2.order,
            if pr.2.parentUuid = pageId then pageId
            else getOrCreateId l2g fresh pr.2.parentUuid⟩ : FlatEntry)))
          (flattenAux pageId 0 nodes)) =
        some ⟨pr.2.content, some .bullet, pr.2.order,
          if pr.2.parentUuid = pageId then pageId
          else getOrCreateId l2g fresh pr.2.parentUuid⟩ :=
      lookup_eq_of_mem_of_nodup _ (by rw [hkeysF]; exact hgnd)
        (List.mem_map_of_mem _ hpr)
    rw [lookupEntry, hEXP, hlk]
    rfl
  have hA : lookupEntry (actMapOf pageId nodes) pr.1 = pr.2 := by
    have hlk : List.lookup pr.1 (flattenAux pageId 0 nodes) = some pr.2 :=
      lookup_eq_of_mem_of_nodup _ (by rw [flattenAux_keys]; exact hnd) hpr
    rw [lookupEntry, hACT, hlk]
    rfl
  refine execOp_upd_noop env pageId _ _ ?_ ?_ ?_
  · show (lookupEntry (actMapOf pageId nodes) pr.1).parentUuid = _
    rw [hA, hE]
    rw [show ((⟨pr.2.content, some .bullet, pr.2.order,
        if pr.2.parentUuid = pageId then pageId
        else getOrCreateId l2g fresh pr.2.parentUuid⟩ :
        FlatEntry)).parentUuid =
      (if pr.2.parentUuid = pageId then pageId
       else getOrCreateId l2g fresh pr.2.parentUuid) from rfl]
    rw [show (⟨l2gM, g2lM,
        List.map (fun pr : Str × FlatEntry =>
          (getOrCreateId l2g fresh pr.1, pr.1))
          (flattenAux pageId 0 nodes), []⟩ : RunState).spToLocal =
      List.map (fun pr : Str × FlatEntry =>
        (getOrCreateId l2g fresh pr.1, pr.1))
        (flattenAux pageId 0 nodes) from rfl]
    by_cases hc : pr.2.parentUuid = pageId
    · rw [if_pos hc, if_pos rfl]
      exact hc
    · have hw : pr.2.parentUuid ∈ treeUuids nodes := by
        rcases flattenAux_parent_mem nodes pageId 0 pr hpr with h | h
        · exact absurd h hc
        · exact h
      have hgmem : getOrCreateId l2g fresh pr.2.parentUuid ∈
          gids l2g fresh nodes := by
        rw [gids]
        exact List.mem_map_of_mem _ hw
      have hgne : getOrCreateId l2g fresh pr.2.parentUuid ≠ pageId :=
        fun he => hpageG (he ▸ hgmem)
      rw [if_neg hc, if_neg hgne]
      have hw2 := hw
      rw [← flattenAux_keys pageId 0 nodes] at hw2
      obtain ⟨pr2, hpr2, hfst2⟩ := List.mem_map.mp hw2
      have hmem2 : (getOrCreateId l2g fresh pr.2.parentUuid,
          pr.2.parentUuid) ∈
          List.map (fun pr : Str × FlatEntry =>
            (getOrCreateId l2g fresh pr.1, pr.1))
            (flattenAux pageId 0 nodes) := by
        rw [← hfst2]
        exact List.mem_map_of_mem _ hpr2
      have hlk2 : List.lookup (getOrCreateId l2g fresh pr.2.parentUuid)
          (List.map (fun pr : Str × FlatEntry =>
            (getOrCreateId l2g fresh pr.1, pr.1))
            (flattenAux pageId 0 nodes)) = some pr.2.parentUuid :=
        lookup_eq_of_mem_of_nodup _ (by rw [hkeysES]; exact hgnd) hmem2
      rw [lookupD, hlk2]
      rfl
  · show (lookupEntry (actMapOf pageId nodes) pr.1).order = _
    rw [hA, hE]
  · show (lookupEntry (actMapOf pageId nodes) pr.1).content = _
    rw [hA, hE]

set_option maxRecDepth 16384 in
unseal toAtJson stripProps flattenAux insertAtLevel annotate in
/-- A concrete refutation input for the unconditional round-trip claim: one
block whose raw content carries a `title::` property line; the encoder strips
the line, so re-applying the encoded document to the unchanged tree emits an
`updateBlock` mutation even though the identifier mappings are fully
populated. -/
theorem applyState_roundtrip_not_noop :
    (runApplyState
      ⟨fun _ => .ok [], some "t".toList, [], none⟩
      [("u".toList, "g".toList)] [("g".toList, "u".toList)] "p".toList
      (calculateState (fun s => ⟨s, []⟩) (fun _ => "g".toList)
        (fun _ => "f".toList) "t".toList []
        [.mk "a\ntitle:: b".toList "u".toList [] none])
      [.mk "a\ntitle:: b".toList "u".toList [] none]).1.muts ≠ [] := by
  decide

set_option maxRecDepth 16384 in
unseal stripProps treeUuids nodesList in
/-- Witness for `applyState_roundtrip_noop`: the amended round trip applied at
a concrete populated one-block instance under the trivial inline codec. -/
theorem applyState_roundtrip_noop_witness :
    ((ParseBounded (fun s => (⟨s, []⟩ : InitialSchema)) ∧
      (∀ s : Str, ∀ a ∈ ((fun s => (⟨s, []⟩ : InitialSchema)) s).annos,
        a.type ≠ blockT ∧ a.type ≠ metadataT) ∧
      (∀ s : Str, ∀ a ∈ ((fun s => (⟨s, []⟩ : InitialSchema)) s).annos,
        a.start < a.stop) ∧
      (∀ s : Str, annotate ((fun s => (⟨s, []⟩ : InitialSchema)) s).content
        ((fun s => (⟨s, []⟩ : InitialSchema)) s).annos = s)) ∧
     ([BlockNode.mk "a".toList "u".toList [] none].filter isContentBlock =
        [BlockNode.mk "a".toList "u".toList [] none] ∧
      (treeUuids [BlockNode.mk "a".toList "u".toList [] none]).Nodup ∧
      (gids (fun _ => "g".toList) (fun _ => "f".toList)
        [BlockNode.mk "a".toList "u".toList [] none]).Nodup ∧
      "p".toList ∉ treeUuids [BlockNode.mk "a".toList "u".toList [] none] ∧
      "p".toList ∉ gids (fun _ => "g".toList) (fun _ => "f".toList)
        [BlockNode.mk "a".toList "u".toList [] none] ∧
      (∀ w ∈ treeUuids [BlockNode.mk "a".toList "u".toList [] none],
        (fun _ : Str => "g".toList) w ≠ []) ∧
      (∀ w ∈ treeUuids [BlockNode.mk "a".toList "u".toList [] none],
        ([("g".toList, "u".toList)] : List (Str × Str)).lookup
          (getOrCreateId (fun _ => "g".toList) (fun _ => "f".toList) w) =
          some w) ∧
      (∀ w ∈ treeUuids [BlockNode.mk "a".toList "u".toList [] none],
        w ≠ []) ∧
      (∀ b ∈ nodesList [BlockNode.mk "a".toList "u".toList [] none],
        preContent b.content b.uuid = b.content) ∧
      (⟨fun _ => .ok [], some "t".toList, [], none⟩ : HostEnv).pageTitle =
        some "t".toList)) ∧
    runApplyState (⟨fun _ => .ok [], some "t".toList, [], none⟩ : HostEnv)
      [("u".toList, "g".toList)] [("g".toList, "u".toList)] "p".toList
      (calculateState (fun s => ⟨s, []⟩) (fun _ => "g".toList)
        (fun _ => "f".toList) "t".toList []
        [BlockNode.mk "a".toList "u".toList [] none])
      [BlockNode.mk "a".toList "u".toList [] none] =
      (⟨[("u".toList, "g".toList)], [("g".toList, "u".toList)],
        (flattenAux "p".toList 0
          [BlockNode.mk "a".toList "u".toList [] none]).map fun pr =>
            (getOrCreateId (fun _ => "g".toList) (fun _ => "f".toList) pr.1,
             pr.1), []⟩, none) :=
  ⟨⟨⟨fun _ a ha => absurd ha (List.not_mem_nil a),
     fun _ a ha => absurd ha (List.not_mem_nil a),
     fun _ a ha => absurd ha (List.not_mem_nil a),
     fun _ => by rw [annotate]⟩,
    by decide, by decide, by decide, by decide, by decide, by decide,
    by decide, by decide, by decide, rfl⟩,
   applyState_roundtrip_noop (fun s => ⟨s, []⟩) (fun _ => "g".toList)
     (fun _ => "f".toList) ⟨fun _ => .ok [], some "t".toList, [], none⟩
     [("u".toList, "g".toList)] [("g".toList, "u".toList)]
     "t".toList [] "p".toList [BlockNode.mk "a".toList "u".toList [] none]
     (fun _ a ha => absurd ha (List.not_mem_nil a))
     (fun _ a ha => absurd ha (List.not_mem_nil a))
     (fun _ a ha => absurd ha (List.not_mem_nil a))
     (fun _ => by rw [annotate])
     (by decide) (by decide) (by decide) (by decide) (by decide) (by decide)
     (by decide) (by decide) (by decide) rfl⟩
